import Mathlib

/-!
Verification development for the SYCL graph extension header
(`sycl/ext/oneapi/experimental/graph.hpp`).

The shallow embedding models the command-dependency graph core:

* `NodeR` embeds `detail::node_impl` (fields `is_scheduled`, `is_empty`,
  `nid`, `my_successors`, `my_predecessors`; the presence of the
  `my_body` closure is tracked by the boolean `hasBody`, and the
  completion handle `my_event` of a node is identified with the node's
  arena index, since the code only moves these handles around opaquely).
* `GraphState` embeds `detail::graph_impl` together with the arena of
  node objects (`std::shared_ptr<node_impl>` identity becomes a stable
  index into `nodes`) and the capture cursor `ptr_prev_node` of `graph`.
* Each public operation of `graph` / `node` is translated into a state
  function named after its source counterpart.
* The recursive `topology_sort` and the wait-list worklist of
  `node_impl::exec` are translated with an explicit fuel parameter;
  `none` models non-termination (fuel exhaustion), and adequacy theorems
  show the needed fuel exists.
-/

/-- Embedding of `detail::node_impl` (graph.hpp lines 47-106).
`hasBody` records whether `my_body` holds a closure; `succs`/`preds`
hold arena indices of `my_successors`/`my_predecessors`. -/
structure NodeR where
  isScheduled : Bool := false
  isEmpty : Bool := true
  hasBody : Bool := false
  nid : Nat := 0
  succs : List Nat := []
  preds : List Nat := []
deriving DecidableEq

instance : Inhabited NodeR := ⟨{}⟩

/-- Embedding of `detail::graph_impl` plus the members of `graph` that
the core uses: the node arena, `my_roots` (`std::set`, modelled as a
`Finset` of indices; iteration order is supplied explicitly where the
code iterates the set), `my_schedule`, and `ptr_prev_node`. -/
structure GraphState where
  nodes : List NodeR := []
  roots : Finset Nat := ∅
  sched : List Nat := []
  prevNode : Option Nat := none
deriving DecidableEq

/-- The empty graph produced by `graph()` (line 353). -/
def freshGraph : GraphState := {}

/-- In-place update of the `i`-th list entry (identity when `i` is out
of range), used to mutate one node object of the arena. -/
def modIdx : List α → Nat → (α → α) → List α
  | [], _, _ => []
  | x :: xs, 0, f => f x :: xs
  | x :: xs, n + 1, f => x :: modIdx xs n f

/-- Dereference a node pointer: arena lookup with a default. -/
def nodeAt (g : GraphState) (i : Nat) : NodeR := g.nodes.getD i default

def succOf (g : GraphState) (i : Nat) : List Nat := (nodeAt g i).succs

def predsOf (g : GraphState) (i : Nat) : List Nat := (nodeAt g i).preds

def isEmptyOf (g : GraphState) (i : Nat) : Bool := (nodeAt g i).isEmpty

def hasBodyOf (g : GraphState) (i : Nat) : Bool := (nodeAt g i).hasBody

def nidOf (g : GraphState) (i : Nat) : Nat := (nodeAt g i).nid

def markOf (g : GraphState) (i : Nat) : Bool := (nodeAt g i).isScheduled

/-- `node_impl::register_successor` (lines 80-85): appends `j` to
`i.my_successors` and `i` to `j.my_predecessors`. -/
def registerSuccessor (g : GraphState) (i j : Nat) : GraphState :=
  let g1 := { g with
    nodes := modIdx g.nodes i (fun nd => { nd with succs := nd.succs ++ [j] }) }
  { g1 with
    nodes := modIdx g1.nodes j (fun nd => { nd with preds := nd.preds ++ [i] }) }

/-- The shared tail of `graph_impl::add_root` / `remove_root`
(lines 131-133 / 138-140): reset `is_scheduled` on every node of
`my_schedule`, then clear `my_schedule`. -/
def clearSchedMarks (g : GraphState) : GraphState :=
  { g with
    nodes := g.sched.foldl
      (fun ns k => modIdx ns k (fun nd => { nd with isScheduled := false }))
      g.nodes,
    sched := [] }

/-- `graph_impl::add_root` (lines 129-134). -/
def addRootImpl (g : GraphState) (i : Nat) : GraphState :=
  clearSchedMarks { g with roots := insert i g.roots }

/-- `graph_impl::remove_root` (lines 136-141). -/
def removeRootImpl (g : GraphState) (i : Nat) : GraphState :=
  clearSchedMarks { g with roots := g.roots.erase i }

/-- `graph::make_edge` (lines 1068-1072): register the successor link,
then remove the receiver from the root set. -/
def makeEdgeImpl (g : GraphState) (i j : Nat) : GraphState :=
  removeRootImpl (registerSuccessor g i j) j

/-- Node object made by `node_impl(graph_ptr, T cgf)` (line 93-95). -/
def newBodyNode : NodeR := { isEmpty := false, hasBody := true }

/-- Node object made by `node_impl()` / `node_impl(graph_ptr)`
(lines 89-91). -/
def newEmptyNode : NodeR := {}

/-- Allocate a node in the arena; the returned index is its identity. -/
def pushNode (g : GraphState) (nd : NodeR) : GraphState × Nat :=
  ({ g with nodes := g.nodes ++ [nd] }, g.nodes.length)

/-- The shared dependency branch of the add/update overloads: for a
non-empty `dep` vector call `make_edge(d, node)` for each `d`, else
`node.set_root()` (which is `add_root`). -/
def applyDeps (g : GraphState) (i : Nat) (deps : List Nat) : GraphState :=
  match deps with
  | [] => addRootImpl g i
  | _ :: _ => deps.foldl (fun h d => makeEdgeImpl h d i) g

/-- `graph::add_node(T cgf, dep, capture)` (lines 395-418), returning
the new node's index.  The capture branch consults and updates
`ptr_prev_node`. -/
def addNodeCgf (g : GraphState) (deps : List Nat) (capture : Bool) :
    GraphState × Nat :=
  let p := pushNode g newBodyNode
  if capture = false then
    (applyDeps p.1 p.2 deps, p.2)
  else
    match p.1.prevNode with
    | none => ({ addRootImpl p.1 p.2 with prevNode := some p.2 }, p.2)
    | some q => ({ registerSuccessor p.1 q p.2 with prevNode := some p.2 }, p.2)

/-- `graph::add_node(dep)` (lines 426-435): add an empty node. -/
def addNodeEmpty (g : GraphState) (deps : List Nat) : GraphState × Nat :=
  let p := pushNode g newEmptyNode
  (applyDeps p.1 p.2 deps, p.2)

/-- `graph::add_node(node&, dep)` (lines 442-452): rebind an existing
node object; sets `is_empty = false` but installs no body. -/
def addNodeExisting (g : GraphState) (i : Nat) (deps : List Nat) : GraphState :=
  applyDeps
    { g with nodes := modIdx g.nodes i (fun nd => { nd with isEmpty := false }) }
    i deps

/-- `graph::add_node(node&, T cgf, dep)` (lines 460-472). -/
def addNodeExistingCgf (g : GraphState) (i : Nat) (deps : List Nat) :
    GraphState :=
  let f := fun (nd : NodeR) => { nd with hasBody := true, isEmpty := false }
  applyDeps { g with nodes := modIdx g.nodes i f } i deps

/-- `graph::update_node(node&, dep)` (lines 478-488): sets
`is_empty = true` without clearing `my_body`, then re-runs the
dependency branch (re-rooting on an empty `dep`). -/
def updateNodeNoCgf (g : GraphState) (i : Nat) (deps : List Nat) : GraphState :=
  applyDeps
    { g with nodes := modIdx g.nodes i (fun nd => { nd with isEmpty := true }) }
    i deps

/-- `graph::update_node(node&, T cgf, dep)` (lines 496-507). -/
def updateNodeCgf (g : GraphState) (i : Nat) (deps : List Nat) : GraphState :=
  let f := fun (nd : NodeR) => { nd with hasBody := true, isEmpty := false }
  applyDeps { g with nodes := modIdx g.nodes i f } i deps

/-- `node::update(T cgf)` (lines 167-171). -/
def nodeUpdate (g : GraphState) (i : Nat) : GraphState :=
  let f := fun (nd : NodeR) =>
    { nd with isScheduled := false, isEmpty := false, hasBody := true }
  { g with nodes := modIdx g.nodes i f }

/-- Traversal state of `topology_sort`: the set of nodes whose
`is_scheduled` flag is raised, and the schedule list built by
`push_front` (head = most recently pushed). -/
structure SortSt where
  marked : Finset Nat
  sched : List Nat
deriving DecidableEq

/-- The successor loop inside `topology_sort`, parametrized by the
recursive call (one fuel level down). -/
def goSuccs (rec : Nat → SortSt → Option SortSt) :
    List Nat → SortSt → Option SortSt
  | [], s => some s
  | u :: rest, s =>
    if u ∈ s.marked then goSuccs rec rest s
    else
      match rec u s with
      | none => none
      | some s2 => goSuccs rec rest s2

/-- One unfolding of `topology_sort`'s body: set `is_scheduled`, run
the successor loop, then `push_front` this node. -/
def sortStep (succ : Nat → List Nat) (rec : Nat → SortSt → Option SortSt)
    (v : Nat) (s : SortSt) : Option SortSt :=
  match goSuccs rec (succ v) ⟨insert v s.marked, s.sched⟩ with
  | none => none
  | some s2 => some ⟨s2.marked, v :: s2.sched⟩

/-- `node_impl::topology_sort` (lines 98-105), with fuel modelling the
C++ call stack; `none` is non-termination (fuel exhaustion). -/
def sortNode (succ : Nat → List Nat) : Nat → Nat → SortSt → Option SortSt
  | 0 => fun _ _ => none
  | f + 1 => sortStep succ (sortNode succ f)

/-- The root loop of `graph_impl::exec` (lines 116-118): call
`topology_sort` on each root in the given iteration order of
`my_roots`. -/
def sortRoots (succ : Nat → List Nat) (fuel : Nat) :
    List Nat → SortSt → Option SortSt
  | [], s => some s
  | r :: rest, s =>
    match sortNode succ fuel r s with
    | none => none
    | some s2 => sortRoots succ fuel rest s2

/-- The set of nodes whose `is_scheduled` flag is currently raised. -/
def markedSet (g : GraphState) : Finset Nat :=
  (Finset.range g.nodes.length).filter (fun i => markOf g i = true)

/-- Write a finished traversal back into the graph: raise
`is_scheduled` on exactly the marked nodes and store the schedule. -/
def writeSchedule (g : GraphState) (st : SortSt) : GraphState :=
  { g with
    nodes := (List.range g.nodes.length).map
      (fun i => { nodeAt g i with isScheduled := decide (i ∈ st.marked) }),
    sched := st.sched }

/-- The schedule-computing half of `graph_impl::exec` (lines 114-119):
if `my_schedule` is empty, run `topology_sort` from every root
(`order` is the iteration order of the `std::set` `my_roots`). -/
def ensureSchedule (g : GraphState) (order : List Nat) (fuel : Nat) :
    Option GraphState :=
  match g.sched with
  | _ :: _ => some g
  | [] =>
    match sortRoots (succOf g) fuel order ⟨markedSet g, []⟩ with
    | none => none
    | some st => some (writeSchedule g st)

/-- `graph::num_nodes` (lines 1076-1078): the size of `my_schedule`,
with no recomputation. -/
def numNodes (g : GraphState) : Nat := g.sched.length

/-- The worklist loop of `node_impl::exec` (lines 63-74) that builds
the wait list `__deps`.  The work list is kept head-first (the C++
`pop_back` takes the head here); an entry of the result stands for
`get_event()` of that node.  `none` models non-termination. -/
def resolveLoop (g : GraphState) :
    Nat → List Nat → List Nat → Option (List Nat)
  | _, [], deps => some deps
  | 0, _ :: _, _ => none
  | f + 1, c :: rest, deps =>
    if isEmptyOf g c = true then
      resolveLoop g f ((predsOf g c).reverse ++ rest) deps
    else
      resolveLoop g f rest (deps ++ [c])

/-- The wait set `node_impl::exec` computes for node `b`: start the
worklist from a copy of `b.my_predecessors` (popped from the back). -/
def resolveWaitSet (g : GraphState) (fuel b : Nat) : Option (List Nat) :=
  resolveLoop g fuel (predsOf g b).reverse []

/-- The inner successor scan of `graph::locate_node` (lines 1102-1106). -/
def findSucc (g : GraphState) (id : Nat) : List Nat → Option Nat
  | [] => none
  | s :: rest => if nidOf g s = id then some s else findSucc g id rest

/-- `graph::locate_node` (lines 1096-1109), iterating `my_roots` in the
given order.  The C++ function has no return statement after the loop;
reaching that point is undefined behavior, modelled as `none`. -/
def locateNode (g : GraphState) (id : Nat) : List Nat → Option Nat
  | [] => none
  | r :: rest =>
    if nidOf g r = id then some r
    else
      match findSucc g id (succOf g r) with
      | some s => some s
      | none => locateNode g id rest

/-- Edge relation of the successor graph. -/
def stepEdge (succ : Nat → List Nat) (x y : Nat) : Prop := y ∈ succ x

/-- A schedule list is successor-closed with order: wherever a node
occurs, all of its successors occur strictly later in the list. -/
def SchedClosed (succ : Nat → List Nat) (L : List Nat) : Prop :=
  ∀ L1 x L2, L = L1 ++ x :: L2 → ∀ u ∈ succ x, u ∈ L2

/-- `a` is an ancestor of `b` along a chain of predecessors all of
whose intermediate nodes are empty (the flattening rule of
`node_impl::exec`). -/
inductive EmptyAnc (g : GraphState) : Nat → Nat → Prop
  | direct {b a : Nat} : a ∈ predsOf g b → EmptyAnc g b a
  | through {b e a : Nat} : e ∈ predsOf g b → isEmptyOf g e = true →
      EmptyAnc g e a → EmptyAnc g b a

/-- The non-empty nodes a single worklist entry `c` resolves to:
`c` itself when non-empty, otherwise anything its predecessors
resolve to. -/
inductive Resolves (g : GraphState) : Nat → Nat → Prop
  | self {c : Nat} : isEmptyOf g c = false → Resolves g c c
  | step {c p a : Nat} : isEmptyOf g c = true → p ∈ predsOf g c →
      Resolves g p a → Resolves g c a

/-- The largest predecessor-list length in the arena, used to bound the
work of the wait-set worklist. -/
def maxPredLen (g : GraphState) : Nat :=
  g.nodes.foldr (fun nd m => max nd.preds.length m) 0

/-- The root invariant claimed by the spec: a node is in `my_roots`
exactly when its predecessor list is empty (and roots are real
nodes). -/
def RootInv (g : GraphState) : Prop :=
  (∀ i ∈ g.roots, i < g.nodes.length) ∧
  ∀ i, i < g.nodes.length →
    (i ∈ g.roots ↔ predsOf g i = [])

/-- The body invariant claimed by the spec: a node carries a body
exactly when it is not marked empty. -/
def BodyInv (g : GraphState) : Prop :=
  ∀ i, i < g.nodes.length →
    (hasBodyOf g i = true ↔ isEmptyOf g i = false)

/-- The operations that maintain the root invariant: creating fresh
nodes through any `add_node` overload that allocates (with or without
capture), and `make_edge`. -/
inductive RootSafeOp where
  | addCgf (deps : List Nat) (capture : Bool)
  | addEmpty (deps : List Nat)
  | edge (a b : Nat)

def applyRootSafeOp (op : RootSafeOp) (g : GraphState) : GraphState :=
  match op with
  | .addCgf deps capture => (addNodeCgf g deps capture).1
  | .addEmpty deps => (addNodeEmpty g deps).1
  | .edge a b => makeEdgeImpl g a b

/-- The operations that maintain the body invariant: fresh-node
creation, `make_edge`, `node::update`, and the overloads that install
a body while clearing `is_empty`. -/
inductive BodySafeOp where
  | addCgf (deps : List Nat) (capture : Bool)
  | addEmpty (deps : List Nat)
  | edge (a b : Nat)
  | updNode (i : Nat)
  | addExistingCgf (i : Nat) (deps : List Nat)
  | updateCgf (i : Nat) (deps : List Nat)

def applyBodySafeOp (op : BodySafeOp) (g : GraphState) : GraphState :=
  match op with
  | .addCgf deps capture => (addNodeCgf g deps capture).1
  | .addEmpty deps => (addNodeEmpty g deps).1
  | .edge a b => makeEdgeImpl g a b
  | .updNode i => nodeUpdate g i
  | .addExistingCgf i deps => addNodeExistingCgf g i deps
  | .updateCgf i deps => updateNodeCgf g i deps

/-- `N` calls of `add_node(cgf)` with no dependencies on a graph. -/
def addMany : GraphState → Nat → GraphState
  | g, 0 => g
  | g, n + 1 => (addNodeCgf (addMany g n) [] false).1

/-- Three successive capture-mode `add_node(cgf, {}, true)` calls on a
fresh graph (the C7 scenario). -/
def chainCapture3 : GraphState :=
  (addNodeCgf (addNodeCgf (addNodeCgf freshGraph [] true).1 [] true).1 [] true).1

/-- Public-operation sequence breaking the root invariant:
`a = add_node(cgf)`, `b = add_node(cgf, {a})`, then
`update_node(b, {})`. -/
def rootInvBreak : GraphState :=
  let p1 := addNodeCgf freshGraph [] false
  let p2 := addNodeCgf p1.1 [p1.2] false
  updateNodeNoCgf p2.1 p2.2 []

/-- One captured node followed by a schedule computation (the state
before the second capture-mode add in the C3 scenario). -/
def captureOneScheduled : GraphState :=
  (ensureSchedule (addNodeCgf freshGraph [] true).1 [0] 2).getD freshGraph

/-- A second capture-mode add on top of `captureOneScheduled`: the
register-successor call of the capture branch runs with no root
mutation, so the cached schedule survives. -/
def captureTwoStale : GraphState := (addNodeCgf captureOneScheduled [] true).1

/-- The cycle `A -> B -> A` built by direct link manipulation
(bypassing `make_edge`'s root removal, so `A` stays a root). -/
def cycAB : GraphState :=
  { nodes := [ { isEmpty := false, hasBody := true, succs := [1], preds := [1] },
               { isEmpty := false, hasBody := true, succs := [0], preds := [0] } ],
    roots := {0}, sched := [], prevNode := none }

/-- Public-operation sequence breaking the body invariant:
`a = add_node(cgf)` then `update_node(a, {})`, which sets
`is_empty = true` without clearing the stored body. -/
def bodyInvBreak : GraphState :=
  let p1 := addNodeCgf freshGraph [] false
  updateNodeNoCgf p1.1 p1.2 []

/-- A graph with one root node (whose `nid` is the default `0`), used
to drive `locate_node` to the end of its loop. -/
def oneRootGraph : GraphState := (addNodeCgf freshGraph [] false).1

/-- The flattening scenario `A -> E(empty) -> B` built by public
operations: `a = add_node(cgf)`, `e = add_node({a})` (empty),
`b = add_node(cgf, {e})`. -/
def flattenAEB : GraphState :=
  let pa := addNodeCgf freshGraph [] false
  let pe := addNodeEmpty pa.1 [pa.2]
  (addNodeCgf pe.1 [pe.2] false).1

instance (g : GraphState) : Decidable (RootInv g) := by
  unfold RootInv; infer_instance

instance (g : GraphState) : Decidable (BodyInv g) := by
  unfold BodyInv; infer_instance

/-- Bookkeeping contract of one `topology_sort` call `op v s`: the
schedule grows by a block `new` of freshly pushed nodes containing `v`,
the marked set grows by exactly the pushed nodes, the pushed nodes are
pairwise distinct, and every pushed node other than `v` was unmarked
before the call. -/
def SortNodeBasic (op : Nat → SortSt → Option SortSt) : Prop :=
  ∀ v s s', op v s = some s' →
    ∃ new, s'.sched = new ++ s.sched ∧
      s'.marked = s.marked ∪ new.toFinset ∧
      v ∈ new ∧ new.Nodup ∧ ∀ x ∈ new, x = v ∨ x ∉ s.marked

/-- Adequacy contract of one `topology_sort` call at fuel `f`: on an
unmarked in-range node the call succeeds whenever `f` dominates the
number of unmarked in-range nodes. -/
def SortNodeAdq (n f : Nat) (op : Nat → SortSt → Option SortSt) : Prop :=
  ∀ v s, v < n → v ∉ s.marked →
    f ≥ (Finset.range n \ s.marked).card → (op v s).isSome = true

/-- Ordering contract of one `topology_sort` call `op v s`: if the
schedule is successor-closed and every grey node (marked but not yet
pushed) reaches `v`, then the resulting schedule is successor-closed
and the grey set only shrinks (and loses `v`). -/
def SortNodeOrd (succ : Nat → List Nat) (op : Nat → SortSt → Option SortSt) :
    Prop :=
  ∀ v s s', op v s = some s' →
    SchedClosed succ s.sched →
    (∀ gx ∈ s.marked, gx ∉ s.sched →
      Relation.ReflTransGen (stepEdge succ) gx v) →
    SchedClosed succ s'.sched ∧
    ∀ x ∈ s'.marked, x ∉ s'.sched → x ∈ s.marked ∧ x ∉ s.sched ∧ x ≠ v

/-- C7: on a fresh graph, three successive capture-mode
`add_node(body, {}, capture=true)` calls produce the single linear
chain `0 -> 1 -> 2` in call order; node 0 is the only root. -/
theorem capture_chain_three_nodes :
    chainCapture3.nodes.length = 3 ∧
    succOf chainCapture3 0 = [1] ∧ succOf chainCapture3 1 = [2] ∧
    succOf chainCapture3 2 = [] ∧
    predsOf chainCapture3 0 = [] ∧ predsOf chainCapture3 1 = [0] ∧
    predsOf chainCapture3 2 = [1] ∧
    chainCapture3.roots = {0} ∧
    1 ∉ chainCapture3.roots ∧ 2 ∉ chainCapture3.roots := by decide

/-- C8: on a one-root graph whose only node has `nid = 0`, looking up
the absent id `5` drives `locate_node`'s loop to completion without
any `return`; in the C++ source control falls off the end of a
non-void function (undefined behavior), modelled as `none`. -/
theorem locate_node_miss_reaches_end :
    locateNode oneRootGraph 5 [0] = none ∧
    nidOf oneRootGraph 0 = 0 ∧ oneRootGraph.nodes.length = 1 := by decide

/-- C5 counterexample: on the cycle `A -> B -> A` (node 0 kept as a
root by direct link manipulation), the schedule computation completes
normally — `isSome` — so no `CycleDetected` error is ever reported to
the caller; the code has no error channel at all. -/
theorem cycle_sort_returns_schedule_without_error :
    1 ∈ succOf cycAB 0 ∧ 0 ∈ succOf cycAB 1 ∧
    (ensureSchedule cycAB [0] 3).isSome = true := by decide

/-- C5 amended: on the cycle `A -> B -> A`, `topology_sort` terminates
(the `is_scheduled` marker stops the recursion) and silently returns
the schedule `[A, B]`; no cycle diagnostics exist in the code. -/
theorem cycle_sort_terminates_with_schedule :
    (ensureSchedule cycAB [0] 3).map (fun g => g.sched) = some [0, 1] := by
  decide

/-- C2 counterexample: after the public sequence `a = add_node(cgf)`;
`b = add_node(cgf, {a})`; `update_node(b, {})`, node `b` (index 1) is
in the root set while holding predecessor `a` — the claimed
root-iff-no-predecessors invariant fails after a public mutation. -/
theorem root_invariant_broken_by_update_node :
    1 ∈ rootInvBreak.roots ∧ predsOf rootInvBreak 1 = [0] ∧
    1 < rootInvBreak.nodes.length ∧ ¬ RootInv rootInvBreak := by decide

/-- C3 counterexample: after one captured node and a schedule
computation the cache holds `[0]`; a second capture-mode `add_node`
adds the edge `0 -> 1` through `register_successor` alone, leaving the
stale non-empty cache `[0]` that omits node 1 — the claimed
clear-on-every-edge invariant fails. -/
theorem capture_add_leaves_stale_schedule :
    captureOneScheduled.sched = [0] ∧
    captureTwoStale.sched = [0] ∧
    captureTwoStale.nodes.length = 2 ∧
    1 ∈ succOf captureTwoStale 0 ∧
    1 ∉ captureTwoStale.sched := by decide

/-- C6 counterexample: after adding two independent nodes to a fresh
graph, `num_nodes()` returns 0, not 2 — it reads `my_schedule.size()`
without forcing a schedule computation, and every `add_root` has just
cleared that schedule. -/
theorem num_nodes_zero_before_schedule :
    numNodes (addMany freshGraph 2) = 0 ∧
    numNodes (addMany freshGraph 2) ≠ 2 := by decide

/-- C9 counterexample: `a = add_node(cgf)` then `update_node(a, {})`
leaves node `a` marked empty while its body closure is still stored —
the claimed body-iff-not-empty invariant fails after a public
operation. -/
theorem body_invariant_broken_by_update_node_no_cgf :
    isEmptyOf bodyInvBreak 0 = true ∧ hasBodyOf bodyInvBreak 0 = true ∧
    ¬ BodyInv bodyInvBreak := by decide

/-- C10 counterexample: after `update_node(b, {})` re-roots `b` while
`a -> b` persists, computing the schedule with root order `[a, b]`
pushes `b` twice in one computation (schedule `[b, a, b]`), refuting
"each node is pushed onto the schedule at most once per
computation". -/
theorem root_resort_pushes_node_twice :
    (ensureSchedule rootInvBreak [0, 1] 3).map (fun g => g.sched) =
      some [1, 0, 1] ∧
    ¬ ((ensureSchedule rootInvBreak [0, 1] 3).getD freshGraph).sched.Nodup := by
  decide

theorem modIdx_length (l : List α) (i : Nat) (f : α → α) :
    (modIdx l i f).length = l.length := by
  induction l generalizing i with
  | nil => rfl
  | cons x xs ih =>
    cases i with
    | zero => rfl
    | succ n => simp [modIdx, ih]

theorem modIdx_getD (l : List α) (i k : Nat) (f : α → α) (d : α) :
    (modIdx l i f).getD k d =
      if k = i ∧ k < l.length then f (l.getD k d) else l.getD k d := by
  induction l generalizing i k with
  | nil => simp [modIdx]
  | cons x xs ih =>
    cases i with
    | zero =>
      cases k with
      | zero => simp [modIdx]
      | succ m => simp [modIdx]
    | succ n =>
      cases k with
      | zero => simp [modIdx]
      | succ m =>
        simp only [modIdx, List.getD_cons_succ, ih, List.length_cons]
        by_cases h1 : m = n
        · by_cases h2 : m < xs.length
          · simp [h1, h2, Nat.succ_lt_succ h2]
          · simp [h1, h2, fun hh => h2 (Nat.lt_of_succ_lt_succ hh)]
        · simp [h1, fun hh : m + 1 = n + 1 => h1 (Nat.succ_injective hh)]

theorem goSuccs_basic {rec : Nat → SortSt → Option SortSt}
    (hrec : SortNodeBasic rec) :
    ∀ (l : List Nat) (s s' : SortSt), goSuccs rec l s = some s' →
      ∃ new, s'.sched = new ++ s.sched ∧
        s'.marked = s.marked ∪ new.toFinset ∧
        new.Nodup ∧ ∀ x ∈ new, x ∉ s.marked := by
  intro l
  induction l with
  | nil =>
    intro s s' h
    simp only [goSuccs] at h
    cases h
    exact ⟨[], by simp⟩
  | cons u rest ih =>
    intro s s' h
    by_cases hm : u ∈ s.marked
    · simp only [goSuccs, if_pos hm] at h
      obtain ⟨new, h1, h2, h3, h4⟩ := ih s s' h
      exact ⟨new, h1, h2, h3, h4⟩
    · simp only [goSuccs, if_neg hm] at h
      cases hrc : rec u s with
      | none => rw [hrc] at h; cases h
      | some st =>
        rw [hrc] at h
        obtain ⟨new1, e1, e2, hv, n1, p1⟩ := hrec u s st hrc
        obtain ⟨new2, f1, f2, n2, p2⟩ := ih st s' h
        refine ⟨new2 ++ new1, ?_, ?_, ?_, ?_⟩
        · rw [f1, e1, List.append_assoc]
        · rw [f2, e2]
          ext a
          simp only [Finset.mem_union, List.mem_toFinset, List.mem_append]
          tauto
        · refine n2.append n1 ?_
          intro a ha hb
          have : a ∉ st.marked := p2 a ha
          rw [e2] at this
          exact this (Finset.mem_union_right _ (List.mem_toFinset.2 hb))
        · intro x hx
          rcases List.mem_append.1 hx with h2' | h1'
          · have : x ∉ st.marked := p2 x h2'
            rw [e2] at this
            exact fun hxm => this (Finset.mem_union_left _ hxm)
          · rcases p1 x h1' with rfl | hnm
            · exact hm
            · exact hnm

theorem sortNode_basic (succ : Nat → List Nat) :
    ∀ f, SortNodeBasic (sortNode succ f) := by
  intro f
  induction f with
  | zero => intro v s s' h; cases h
  | succ f ih =>
    intro v s s' h
    simp only [sortNode, sortStep] at h
    cases hgs : goSuccs (sortNode succ f) (succ v) ⟨insert v s.marked, s.sched⟩ with
    | none => rw [hgs] at h; cases h
    | some s2 =>
      rw [hgs] at h
      cases h
      obtain ⟨new2, e1, e2, n2, p2⟩ := goSuccs_basic ih _ _ _ hgs
      refine ⟨v :: new2, ?_, ?_, List.mem_cons_self v new2, ?_, ?_⟩
      · simp only at e1
        simp [e1]
      · simp only at e2
        simp only [e2]
        ext a
        simp only [Finset.mem_union, Finset.mem_insert, List.toFinset_cons,
          List.mem_toFinset]
        tauto
      · refine List.nodup_cons.2 ⟨?_, n2⟩
        intro hv
        exact (p2 v hv) (Finset.mem_insert_self v s.marked)
      · intro x hx
        rcases List.mem_cons.1 hx with rfl | hx2
        · exact Or.inl rfl
        · exact Or.inr (fun hxm =>
            (p2 x hx2) (Finset.mem_insert_of_mem hxm))

theorem goSuccs_adq {rec : Nat → SortSt → Option SortSt} {n f : Nat}
    (hbasic : SortNodeBasic rec) (hadq : SortNodeAdq n f rec) :
    ∀ (l : List Nat) (s : SortSt), (∀ u ∈ l, u < n) →
      f ≥ (Finset.range n \ s.marked).card →
      (goSuccs rec l s).isSome = true := by
  intro l
  induction l with
  | nil => intro s _ _; simp [goSuccs]
  | cons u rest ih =>
    intro s hl hf
    by_cases hm : u ∈ s.marked
    · simp only [goSuccs, if_pos hm]
      exact ih s (fun x hx => hl x (List.mem_cons_of_mem u hx)) hf
    · simp only [goSuccs, if_neg hm]
      have hu : (rec u s).isSome = true :=
        hadq u s (hl u (List.mem_cons_self u rest)) hm hf
      cases hrc : rec u s with
      | none => rw [hrc] at hu; cases hu
      | some st =>
        obtain ⟨new, -, e2, -, -⟩ := hbasic u s st hrc
        have hsub : s.marked ⊆ st.marked := by
          rw [e2]; exact Finset.subset_union_left
        have hcard : (Finset.range n \ st.marked).card ≤
            (Finset.range n \ s.marked).card :=
          Finset.card_le_card (Finset.sdiff_subset_sdiff (subset_refl _) hsub)
        exact ih st (fun x hx => hl x (List.mem_cons_of_mem u hx))
          (le_trans hcard hf)

theorem sortNode_adq (succ : Nat → List Nat) (n : Nat)
    (hcl : ∀ v u, u ∈ succ v → u < n) :
    ∀ f, SortNodeAdq n f (sortNode succ f) := by
  intro f
  induction f with
  | zero =>
    intro v s hv hm hf
    exfalso
    have hmem : v ∈ Finset.range n \ s.marked :=
      Finset.mem_sdiff.2 ⟨Finset.mem_range.2 hv, hm⟩
    have h1 : 0 < (Finset.range n \ s.marked).card :=
      Finset.card_pos.2 ⟨v, hmem⟩
    omega
  | succ f ih =>
    intro v s hv hm hf
    simp only [sortNode, sortStep]
    have hvmem : v ∈ Finset.range n \ s.marked :=
      Finset.mem_sdiff.2 ⟨Finset.mem_range.2 hv, hm⟩
    have hcard : (Finset.range n \ insert v s.marked).card + 1 =
        (Finset.range n \ s.marked).card := by
      rw [Finset.sdiff_insert, Finset.card_erase_of_mem hvmem]
      have h1 : 0 < (Finset.range n \ s.marked).card :=
        Finset.card_pos.2 ⟨v, hvmem⟩
      omega
    have hgs := goSuccs_adq (sortNode_basic succ f) ih (succ v)
      ⟨insert v s.marked, s.sched⟩ (fun u hu => hcl v u hu)
      (by show f ≥ (Finset.range n \ insert v s.marked).card; omega)
    cases hres : goSuccs (sortNode succ f) (succ v)
        ⟨insert v s.marked, s.sched⟩ with
    | none => rw [hres] at hgs; cases hgs
    | some s2 => rfl

theorem sortNode_adq_any (succ : Nat → List Nat) (n : Nat)
    (hcl : ∀ v u, u ∈ succ v → u < n) (f v : Nat) (s : SortSt)
    (hf : f ≥ (Finset.range n \ s.marked).card + 1) :
    (sortNode succ f v s).isSome = true := by
  cases f with
  | zero => omega
  | succ f =>
    simp only [sortNode, sortStep]
    have hsub : Finset.range n \ insert v s.marked ⊆
        Finset.range n \ s.marked :=
      Finset.sdiff_subset_sdiff (subset_refl _) (Finset.subset_insert v s.marked)
    have hc := Finset.card_le_card hsub
    have hgs := goSuccs_adq (sortNode_basic succ f)
      (sortNode_adq succ n hcl f) (succ v)
      ⟨insert v s.marked, s.sched⟩ (fun u hu => hcl v u hu)
      (by show f ≥ (Finset.range n \ insert v s.marked).card; omega)
    cases hres : goSuccs (sortNode succ f) (succ v)
        ⟨insert v s.marked, s.sched⟩ with
    | none => rw [hres] at hgs; cases hgs
    | some s2 => rfl

theorem reach_rank_le {succ : Nat → List Nat} {rk : Nat → Nat}
    (hrk : ∀ v u, u ∈ succ v → rk v < rk u) {x y : Nat}
    (h : Relation.ReflTransGen (stepEdge succ) x y) : rk x ≤ rk y := by
  induction h with
  | refl => exact le_refl _
  | tail _ hstep ih => exact le_trans ih (le_of_lt (hrk _ _ hstep))

theorem schedClosed_nil (succ : Nat → List Nat) : SchedClosed succ [] := by
  intro L1 x L2 h
  exact absurd h (by simp)

theorem schedClosed_mem {succ : Nat → List Nat} {L : List Nat}
    (h : SchedClosed succ L) {x u : Nat} (hx : x ∈ L) (hu : u ∈ succ x) :
    u ∈ L := by
  obtain ⟨L1, L2, rfl⟩ := List.append_of_mem hx
  exact List.mem_append.2 (Or.inr (List.mem_cons.2 (Or.inr (h L1 x L2 rfl u hu))))

theorem schedClosed_reach {succ : Nat → List Nat} {L : List Nat}
    (h : SchedClosed succ L) {x y : Nat}
    (hr : Relation.ReflTransGen (stepEdge succ) x y) (hx : x ∈ L) : y ∈ L := by
  induction hr with
  | refl => exact hx
  | tail _ hstep ih => exact schedClosed_mem h ih hstep

theorem goSuccs_ord {succ : Nat → List Nat} {rec : Nat → SortSt → Option SortSt}
    (hbasic : SortNodeBasic rec) (hord : SortNodeOrd succ rec) :
    ∀ (l : List Nat) (s s' : SortSt), goSuccs rec l s = some s' →
      SchedClosed succ s.sched →
      (∀ gx ∈ s.marked, gx ∉ s.sched → ∀ u ∈ l,
        Relation.ReflTransGen (stepEdge succ) gx u) →
      SchedClosed succ s'.sched ∧
      (∀ x ∈ s'.marked, x ∉ s'.sched → x ∈ s.marked ∧ x ∉ s.sched) ∧
      ∀ u ∈ l, u ∈ s'.marked := by
  intro l
  induction l with
  | nil =>
    intro s s' h hsc _
    simp only [goSuccs] at h
    cases h
    exact ⟨hsc, fun x hx hnx => ⟨hx, hnx⟩, by simp⟩
  | cons u rest ih =>
    intro s s' h hsc hgrey
    by_cases hm : u ∈ s.marked
    · simp only [goSuccs, if_pos hm] at h
      obtain ⟨c1, c2, c3⟩ := ih s s' h hsc
        (fun gx hgx hngx u' hu' => hgrey gx hgx hngx u' (List.mem_cons_of_mem _ hu'))
      refine ⟨c1, c2, ?_⟩
      intro u' hu'
      rcases List.mem_cons.1 hu' with rfl | hu2
      · obtain ⟨new, -, e2, -, -⟩ := goSuccs_basic hbasic rest s s' h
        rw [e2]
        exact Finset.mem_union_left _ hm
      · exact c3 u' hu2
    · simp only [goSuccs, if_neg hm] at h
      cases hrc : rec u s with
      | none => rw [hrc] at h; cases h
      | some st =>
        rw [hrc] at h
        obtain ⟨d1, d2⟩ := hord u s st hrc hsc
          (fun gx hgx hngx => hgrey gx hgx hngx u (List.mem_cons_self u rest))
        obtain ⟨c1, c2, c3⟩ := ih st s' h d1 (fun gx hgx hngx u' hu' => by
          obtain ⟨e1, e2, -⟩ := d2 gx hgx hngx
          exact hgrey gx e1 e2 u' (List.mem_cons_of_mem _ hu'))
        refine ⟨c1, ?_, ?_⟩
        · intro x hx hnx
          obtain ⟨f1, f2⟩ := c2 x hx hnx
          obtain ⟨e1, e2, -⟩ := d2 x f1 f2
          exact ⟨e1, e2⟩
        · intro u' hu'
          rcases List.mem_cons.1 hu' with rfl | hu2
          · obtain ⟨new1, -, e2m, hv, -, -⟩ := hbasic u' s st hrc
            have hust : u' ∈ st.marked := by
              rw [e2m]
              exact Finset.mem_union_right _ (List.mem_toFinset.2 hv)
            obtain ⟨new2, -, f2m, -, -⟩ := goSuccs_basic hbasic rest st s' h
            rw [f2m]
            exact Finset.mem_union_left _ hust
          · exact c3 u' hu2

theorem sortNode_ord (succ : Nat → List Nat) (rk : Nat → Nat)
    (hrk : ∀ v u, u ∈ succ v → rk v < rk u) :
    ∀ f, SortNodeOrd succ (sortNode succ f) := by
  intro f
  induction f with
  | zero => intro v s s' h; cases h
  | succ f ih =>
    intro v s s' h hsc hgrey
    simp only [sortNode, sortStep] at h
    cases hgs : goSuccs (sortNode succ f) (succ v)
        ⟨insert v s.marked, s.sched⟩ with
    | none => rw [hgs] at h; cases h
    | some s2 =>
      rw [hgs] at h
      cases h
      have hgrey1 : ∀ gx ∈ (⟨insert v s.marked, s.sched⟩ : SortSt).marked,
          gx ∉ (⟨insert v s.marked, s.sched⟩ : SortSt).sched → ∀ u ∈ succ v,
          Relation.ReflTransGen (stepEdge succ) gx u := by
        intro gx hgx hngx u hu
        simp only [Finset.mem_insert] at hgx
        rcases hgx with rfl | hgx2
        · exact Relation.ReflTransGen.single hu
        · exact (hgrey gx hgx2 hngx).tail hu
      obtain ⟨c1, c2, c3⟩ :=
        goSuccs_ord (sortNode_basic succ f) ih (succ v) _ _ hgs hsc hgrey1
      have hsuccs_in : ∀ u ∈ succ v, u ∈ s2.sched := by
        intro u hu
        have hum : u ∈ s2.marked := c3 u hu
        by_contra hns
        obtain ⟨g1, g2⟩ := c2 u hum hns
        simp only [Finset.mem_insert] at g1
        rcases g1 with rfl | hgm
        · exact absurd (hrk u u hu) (lt_irrefl _)
        · have h1 : rk u ≤ rk v := reach_rank_le hrk (hgrey u hgm g2)
          have h2 : rk v < rk u := hrk v u hu
          omega
      constructor
      · intro L1 x L2 heq u hu
        cases L1 with
        | nil =>
          simp only [List.nil_append] at heq
          injection heq with h1 h2
          subst h1
          rw [← h2]
          exact hsuccs_in u hu
        | cons y L1t =>
          simp only [List.cons_append] at heq
          injection heq with h1 h2
          exact c1 L1t x L2 h2 u hu
      · intro x hx hnx
        have hnx2 : x ∉ s2.sched := fun hh => hnx (List.mem_cons_of_mem _ hh)
        have hxv : x ≠ v := fun hh => hnx (hh ▸ List.mem_cons_self v s2.sched)
        obtain ⟨g1, g2⟩ := c2 x hx hnx2
        simp only [Finset.mem_insert] at g1
        rcases g1 with rfl | hgm
        · exact absurd rfl hxv
        · exact ⟨hgm, g2, hxv⟩

theorem sortRoots_basic {succ : Nat → List Nat} {fuel : Nat} :
    ∀ (order : List Nat) (s s' : SortSt),
      sortRoots succ fuel order s = some s' →
      ∃ new, s'.sched = new ++ s.sched ∧
        s'.marked = s.marked ∪ new.toFinset ∧
        ∀ x, x ∉ order →
          new.count x ≤ if x ∈ s.marked then 0 else 1 := by
  intro order
  induction order with
  | nil =>
    intro s s' h
    simp only [sortRoots] at h
    cases h
    exact ⟨[], by simp⟩
  | cons r rest ih =>
    intro s s' h
    simp only [sortRoots] at h
    cases hrc : sortNode succ fuel r s with
    | none => rw [hrc] at h; cases h
    | some st =>
      rw [hrc] at h
      obtain ⟨new1, e1, e2, hv, n1, p1⟩ := sortNode_basic succ fuel r s st hrc
      obtain ⟨new2, f1, f2, cnt2⟩ := ih st s' h
      refine ⟨new2 ++ new1, by rw [f1, e1, List.append_assoc], ?_, ?_⟩
      · rw [f2, e2]
        ext a
        simp only [Finset.mem_union, List.mem_toFinset, List.mem_append]
        tauto
      · intro x hx
        have hxr : x ≠ r := fun hh => hx (hh ▸ List.mem_cons_self r rest)
        have hxrest : x ∉ rest := fun hh => hx (List.mem_cons_of_mem _ hh)
        rw [List.count_append]
        by_cases hxm : x ∈ s.marked
        · have hn1 : x ∉ new1 := by
            intro hh
            rcases p1 x hh with rfl | hnm
            · exact hxr rfl
            · exact hnm hxm
          have hstm : x ∈ st.marked := by
            rw [e2]; exact Finset.mem_union_left _ hxm
          have hc2 := cnt2 x hxrest
          rw [if_pos hstm] at hc2
          rw [if_pos hxm]
          rw [List.count_eq_zero.2 hn1]
          omega
        · rw [if_neg hxm]
          by_cases hxn1 : x ∈ new1
          · have h1 : new1.count x ≤ 1 := List.nodup_iff_count_le_one.1 n1 x
            have hstm : x ∈ st.marked := by
              rw [e2]
              exact Finset.mem_union_right _ (List.mem_toFinset.2 hxn1)
            have hc2 := cnt2 x hxrest
            rw [if_pos hstm] at hc2
            omega
          · have h1 : new1.count x = 0 := List.count_eq_zero.2 hxn1
            by_cases hstm : x ∈ st.marked
            · exfalso
              rw [e2] at hstm
              rcases Finset.mem_union.1 hstm with hh | hh
              · exact hxm hh
              · exact hxn1 (List.mem_toFinset.1 hh)
            · have hc2 := cnt2 x hxrest
              rw [if_neg hstm] at hc2
              omega

theorem sortRoots_ord {succ : Nat → List Nat} {rk : Nat → Nat}
    (hrk : ∀ v u, u ∈ succ v → rk v < rk u) {fuel : Nat} :
    ∀ (order : List Nat) (s s' : SortSt),
      sortRoots succ fuel order s = some s' →
      SchedClosed succ s.sched →
      (∀ x ∈ s.marked, x ∈ s.sched) →
      SchedClosed succ s'.sched ∧ (∀ x ∈ s'.marked, x ∈ s'.sched) ∧
      ∀ r ∈ order, r ∈ s'.sched := by
  intro order
  induction order with
  | nil =>
    intro s s' h hsc hms
    simp only [sortRoots] at h
    cases h
    exact ⟨hsc, hms, by simp⟩
  | cons r rest ih =>
    intro s s' h hsc hms
    simp only [sortRoots] at h
    cases hrc : sortNode succ fuel r s with
    | none => rw [hrc] at h; cases h
    | some st =>
      rw [hrc] at h
      obtain ⟨d1, d2⟩ := sortNode_ord succ rk hrk fuel r s st hrc hsc
        (fun gx hgx hngx => absurd (hms gx hgx) hngx)
      have hms2 : ∀ x ∈ st.marked, x ∈ st.sched := by
        intro x hx
        by_contra hnx
        obtain ⟨e1, e2, -⟩ := d2 x hx hnx
        exact e2 (hms x e1)
      obtain ⟨c1, c2, c3⟩ := ih st s' h d1 hms2
      refine ⟨c1, c2, ?_⟩
      intro r' hr'
      rcases List.mem_cons.1 hr' with rfl | hr2
      · obtain ⟨new1, e1s, -, hv, -, -⟩ := sortNode_basic succ fuel r' s st hrc
        have hmem : r' ∈ st.sched := by
          rw [e1s]; exact List.mem_append.2 (Or.inl hv)
        obtain ⟨new2, f1s, -, -⟩ := sortRoots_basic rest st s' h
        rw [f1s]
        exact List.mem_append.2 (Or.inr hmem)
      · exact c3 r' hr2

theorem sortRoots_adq {succ : Nat → List Nat} {n : Nat}
    (hcl : ∀ v u, u ∈ succ v → u < n) {fuel : Nat} :
    ∀ (order : List Nat) (s : SortSt), (∀ r ∈ order, r < n) →
      fuel ≥ (Finset.range n \ s.marked).card + 1 →
      (sortRoots succ fuel order s).isSome = true := by
  intro order
  induction order with
  | nil => intro s _ _; simp [sortRoots]
  | cons r rest ih =>
    intro s hord hf
    simp only [sortRoots]
    have h1 := sortNode_adq_any succ n hcl fuel r s hf
    cases hrc : sortNode succ fuel r s with
    | none => rw [hrc] at h1; cases h1
    | some st =>
      obtain ⟨new, -, e2, -, -⟩ := sortNode_basic succ fuel r s st hrc
      have hsub : s.marked ⊆ st.marked := by
        rw [e2]; exact Finset.subset_union_left
      have hc : (Finset.range n \ st.marked).card ≤
          (Finset.range n \ s.marked).card :=
        Finset.card_le_card (Finset.sdiff_subset_sdiff (subset_refl _) hsub)
      exact ih st (fun x hx => hord x (List.mem_cons_of_mem _ hx)) (by omega)

theorem foldClr_getD (sl : List Nat) (ns : List NodeR) (k : Nat) :
    (sl.foldl
        (fun ns2 j => modIdx ns2 j (fun nd => { nd with isScheduled := false }))
        ns).getD k default =
      if k ∈ sl ∧ k < ns.length then
        { ns.getD k default with isScheduled := false }
      else ns.getD k default := by
  induction sl generalizing ns with
  | nil => simp
  | cons j rest ih =>
    simp only [List.foldl_cons]
    rw [ih, modIdx_length, modIdx_getD]
    by_cases h2 : k < ns.length
    · by_cases h1 : k = j
      · subst h1
        by_cases h3 : k ∈ rest <;> simp [h2, h3]
      · by_cases h3 : k ∈ rest <;> simp [h1, h2, h3]
    · simp [h2]

theorem foldClr_length (sl : List Nat) (ns : List NodeR) :
    (sl.foldl
        (fun ns2 j => modIdx ns2 j (fun nd => { nd with isScheduled := false }))
        ns).length = ns.length := by
  induction sl generalizing ns with
  | nil => rfl
  | cons j rest ih => simp only [List.foldl_cons]; rw [ih, modIdx_length]

theorem clearSchedMarks_len (g : GraphState) :
    (clearSchedMarks g).nodes.length = g.nodes.length := by
  simp only [clearSchedMarks]
  exact foldClr_length g.sched g.nodes

theorem clearSchedMarks_nodeAt (g : GraphState) (k : Nat) :
    nodeAt (clearSchedMarks g) k =
      if k ∈ g.sched ∧ k < g.nodes.length then
        { nodeAt g k with isScheduled := false }
      else nodeAt g k := by
  simp only [clearSchedMarks, nodeAt]
  exact foldClr_getD g.sched g.nodes k

theorem clearSchedMarks_sched (g : GraphState) :
    (clearSchedMarks g).sched = [] := rfl

theorem clearSchedMarks_roots (g : GraphState) :
    (clearSchedMarks g).roots = g.roots := rfl

theorem clearSchedMarks_prev (g : GraphState) :
    (clearSchedMarks g).prevNode = g.prevNode := rfl

theorem registerSuccessor_len (g : GraphState) (i j : Nat) :
    (registerSuccessor g i j).nodes.length = g.nodes.length := by
  simp only [registerSuccessor]
  rw [modIdx_length, modIdx_length]

theorem registerSuccessor_sched (g : GraphState) (i j : Nat) :
    (registerSuccessor g i j).sched = g.sched := rfl

theorem registerSuccessor_roots (g : GraphState) (i j : Nat) :
    (registerSuccessor g i j).roots = g.roots := rfl

theorem registerSuccessor_mark (g : GraphState) (i j k : Nat) :
    markOf (registerSuccessor g i j) k = markOf g k := by
  simp only [markOf, nodeAt, registerSuccessor, modIdx_getD, modIdx_length]
  split <;> split <;> rfl

theorem registerSuccessor_succ_sender (g : GraphState) (i j : Nat)
    (hi : i < g.nodes.length) :
    succOf (registerSuccessor g i j) i = succOf g i ++ [j] := by
  simp only [succOf, nodeAt, registerSuccessor, modIdx_getD, modIdx_length]
  split <;> simp [hi]

theorem registerSuccessor_preds_receiver (g : GraphState) (i j : Nat)
    (hj : j < g.nodes.length) :
    predsOf (registerSuccessor g i j) j = predsOf g j ++ [i] := by
  simp only [predsOf, nodeAt, registerSuccessor, modIdx_getD, modIdx_length]
  rw [if_pos (⟨trivial, hj⟩ : True ∧ j < g.nodes.length)]
  split <;> rfl

theorem clearSchedMarks_succ (g : GraphState) (k : Nat) :
    succOf (clearSchedMarks g) k = succOf g k := by
  simp only [succOf]
  rw [clearSchedMarks_nodeAt]
  split <;> rfl

theorem clearSchedMarks_predsOf (g : GraphState) (k : Nat) :
    predsOf (clearSchedMarks g) k = predsOf g k := by
  simp only [predsOf]
  rw [clearSchedMarks_nodeAt]
  split <;> rfl

theorem clearSchedMarks_markOf (g : GraphState) (k : Nat) :
    markOf (clearSchedMarks g) k =
      if k ∈ g.sched ∧ k < g.nodes.length then false else markOf g k := by
  simp only [markOf]
  rw [clearSchedMarks_nodeAt]
  split <;> rfl

theorem removeRoot_markOf (g : GraphState) (b k : Nat) :
    markOf (removeRootImpl g b) k =
      if k ∈ g.sched ∧ k < g.nodes.length then false else markOf g k :=
  clearSchedMarks_markOf { g with roots := g.roots.erase b } k

theorem removeRoot_succOf (g : GraphState) (b k : Nat) :
    succOf (removeRootImpl g b) k = succOf g k :=
  clearSchedMarks_succ { g with roots := g.roots.erase b } k

theorem removeRoot_predsOf (g : GraphState) (b k : Nat) :
    predsOf (removeRootImpl g b) k = predsOf g k :=
  clearSchedMarks_predsOf { g with roots := g.roots.erase b } k

theorem removeRoot_len (g : GraphState) (b : Nat) :
    (removeRootImpl g b).nodes.length = g.nodes.length :=
  clearSchedMarks_len { g with roots := g.roots.erase b }

theorem makeEdge_len (g : GraphState) (a b : Nat) :
    (makeEdgeImpl g a b).nodes.length = g.nodes.length := by
  simp only [makeEdgeImpl]
  rw [removeRoot_len]
  exact registerSuccessor_len g a b

theorem makeEdge_sched (g : GraphState) (a b : Nat) :
    (makeEdgeImpl g a b).sched = [] := rfl

theorem makeEdge_roots (g : GraphState) (a b : Nat) :
    (makeEdgeImpl g a b).roots = g.roots.erase b := rfl

theorem makeEdge_succ_sender (g : GraphState) (a b : Nat)
    (ha : a < g.nodes.length) :
    succOf (makeEdgeImpl g a b) a = succOf g a ++ [b] := by
  simp only [makeEdgeImpl]
  rw [removeRoot_succOf]
  exact registerSuccessor_succ_sender g a b ha

theorem makeEdge_preds_receiver (g : GraphState) (a b : Nat)
    (hb : b < g.nodes.length) :
    predsOf (makeEdgeImpl g a b) b = predsOf g b ++ [a] := by
  simp only [makeEdgeImpl]
  rw [removeRoot_predsOf]
  exact registerSuccessor_preds_receiver g a b hb

theorem makeEdge_succOf_other (g : GraphState) (a b k : Nat) (hk : k ≠ a) :
    succOf (makeEdgeImpl g a b) k = succOf g k := by
  simp only [makeEdgeImpl]
  rw [removeRoot_succOf]
  simp only [succOf, nodeAt, registerSuccessor, modIdx_getD, modIdx_length]
  split <;> split <;> rename_i h1 h2 <;> first
    | rfl
    | (exact absurd h2.1 hk)

theorem makeEdge_marks_clear (g : GraphState) (a b : Nat)
    (hms : ∀ i, i < g.nodes.length → markOf g i = true → i ∈ g.sched) :
    ∀ k, markOf (makeEdgeImpl g a b) k = false := by
  intro k
  simp only [makeEdgeImpl]
  rw [removeRoot_markOf]
  rw [registerSuccessor_sched, registerSuccessor_len, registerSuccessor_mark]
  split
  · rfl
  · rename_i h
    by_cases hk : k < g.nodes.length
    · by_cases hmm : markOf g k = true
      · exact absurd ⟨hms k hk hmm, hk⟩ h
      · simpa using hmm
    · simp only [markOf, nodeAt]
      rw [List.getD_eq_default _ _ (le_of_not_lt hk)]
      rfl

theorem markedSet_empty_of_clear (g : GraphState)
    (h : ∀ k, markOf g k = false) : markedSet g = ∅ := by
  unfold markedSet
  apply Finset.filter_false_of_mem
  intro i _
  rw [h i]
  simp

theorem writeSchedule_sched (g : GraphState) (st : SortSt) :
    (writeSchedule g st).sched = st.sched := rfl

theorem writeSchedule_roots (g : GraphState) (st : SortSt) :
    (writeSchedule g st).roots = g.roots := rfl

theorem ensureSchedule_of_empty (g : GraphState) (order : List Nat)
    (fuel : Nat) (hsched : g.sched = []) :
    ensureSchedule g order fuel =
      match sortRoots (succOf g) fuel order ⟨markedSet g, []⟩ with
      | none => none
      | some st => some (writeSchedule g st) := by
  unfold ensureSchedule
  rw [hsched]

theorem succOf_out_of_range (g : GraphState) (v : Nat)
    (hv : g.nodes.length ≤ v) : succOf g v = [] := by
  simp only [succOf, nodeAt]
  rw [List.getD_eq_default _ _ hv]
  rfl

theorem first_occ_split {a : Nat} {L : List Nat} (h : a ∈ L) :
    ∃ L1 L2, L = L1 ++ a :: L2 ∧ a ∉ L1 := by
  induction L with
  | nil => cases h
  | cons x xs ih =>
    by_cases hx : a = x
    · subst hx
      exact ⟨[], xs, rfl, by simp⟩
    · have hmem : a ∈ xs := by
        rcases List.mem_cons.1 h with h1 | h1
        · exact absurd h1 hx
        · exact h1
      obtain ⟨L1, L2, heq, hna⟩ := ih hmem
      exact ⟨x :: L1, L2, by rw [heq]; rfl, by simp [hx, hna]⟩

/-- C1: after `make_edge(a, b)` on a well-formed state (every raised
`is_scheduled` flag belongs to a node of the cached schedule), `b` is
no longer a root, `b` is in `a`'s successor list, `a` is in `b`'s
predecessor list, and — provided the resulting graph is acyclic
(witnessed by a rank function increasing along successor edges) and
`a` is reachable from some root of the traversal order — the schedule
computed next places `a` strictly before `b`, for every iteration
order of the root set. -/
theorem make_edge_roots_links_and_schedule_order
    (g0 : GraphState) (a b : Nat) (rk : Nat → Nat) (order : List Nat)
    (fuel : Nat)
    (ha : a < g0.nodes.length) (hb : b < g0.nodes.length)
    (hms : ∀ i, i < g0.nodes.length → markOf g0 i = true → i ∈ g0.sched)
    (hcl : ∀ v, v < g0.nodes.length →
      ∀ u ∈ succOf (makeEdgeImpl g0 a b) v, u < g0.nodes.length)
    (hrk : ∀ v, v < g0.nodes.length →
      ∀ u ∈ succOf (makeEdgeImpl g0 a b) v, rk v < rk u)
    (hordsub : ∀ r ∈ order, r ∈ (makeEdgeImpl g0 a b).roots)
    (hordsup : ∀ r ∈ (makeEdgeImpl g0 a b).roots, r ∈ order)
    (hroots : ∀ r ∈ (makeEdgeImpl g0 a b).roots, r < g0.nodes.length)
    (hreach : ∃ r ∈ order,
      Relation.ReflTransGen (stepEdge (succOf (makeEdgeImpl g0 a b))) r a)
    (hfuel : fuel ≥ g0.nodes.length + 1) :
    b ∉ (makeEdgeImpl g0 a b).roots ∧
    b ∈ succOf (makeEdgeImpl g0 a b) a ∧
    a ∈ predsOf (makeEdgeImpl g0 a b) b ∧
    ∃ g2, ensureSchedule (makeEdgeImpl g0 a b) order fuel = some g2 ∧
      ∃ L1 L2, g2.sched = L1 ++ a :: L2 ∧ a ∉ L1 ∧ b ∈ L2 ∧ b ∉ L1 := by
  have hbroot : b ∉ (makeEdgeImpl g0 a b).roots := by
    rw [makeEdge_roots]
    exact Finset.not_mem_erase b g0.roots
  have hbsucc : b ∈ succOf (makeEdgeImpl g0 a b) a := by
    rw [makeEdge_succ_sender g0 a b ha]
    exact List.mem_append.2 (Or.inr (List.mem_singleton.2 rfl))
  have hapred : a ∈ predsOf (makeEdgeImpl g0 a b) b := by
    rw [makeEdge_preds_receiver g0 a b hb]
    exact List.mem_append.2 (Or.inr (List.mem_singleton.2 rfl))
  refine ⟨hbroot, hbsucc, hapred, ?_⟩
  have hlen : (makeEdgeImpl g0 a b).nodes.length = g0.nodes.length :=
    makeEdge_len g0 a b
  have hcl' : ∀ v u, u ∈ succOf (makeEdgeImpl g0 a b) v →
      u < g0.nodes.length := by
    intro v u hu
    by_cases hv : v < g0.nodes.length
    · exact hcl v hv u hu
    · rw [succOf_out_of_range _ v (by omega)] at hu
      cases hu
  have hrk' : ∀ v u, u ∈ succOf (makeEdgeImpl g0 a b) v → rk v < rk u := by
    intro v u hu
    by_cases hv : v < g0.nodes.length
    · exact hrk v hv u hu
    · rw [succOf_out_of_range _ v (by omega)] at hu
      cases hu
  have hems : markedSet (makeEdgeImpl g0 a b) = ∅ :=
    markedSet_empty_of_clear _ (makeEdge_marks_clear g0 a b hms)
  have hordrange : ∀ r ∈ order, r < g0.nodes.length :=
    fun r hr => hroots r (hordsub r hr)
  have hadq := @sortRoots_adq (succOf (makeEdgeImpl g0 a b))
    g0.nodes.length hcl' fuel order ⟨∅, []⟩ hordrange
    (by simp [Finset.card_range]; omega)
  cases hsort : sortRoots (succOf (makeEdgeImpl g0 a b)) fuel order
      ⟨∅, []⟩ with
  | none => rw [hsort] at hadq; cases hadq
  | some st =>
    obtain ⟨hclosed, hmsched, hrootsched⟩ :=
      sortRoots_ord hrk' order ⟨∅, []⟩ st hsort
        (schedClosed_nil _) (fun x hx => absurd hx (Finset.not_mem_empty x))
    obtain ⟨r, hrord, hrreach⟩ := hreach
    have hamem : a ∈ st.sched :=
      schedClosed_reach hclosed hrreach (hrootsched r hrord)
    obtain ⟨L1, L2, heq, hnaL1⟩ := first_occ_split hamem
    have hbL2 : b ∈ L2 := hclosed L1 a L2 heq b hbsucc
    have hab : a ≠ b := by
      intro hh
      subst hh
      exact absurd (hrk' a a hbsucc) (lt_irrefl _)
    have hbord : b ∉ order := fun hh => hbroot (hordsub b hh)
    obtain ⟨new, hnew1, -, hcount⟩ := sortRoots_basic order ⟨∅, []⟩ st hsort
    have hcnt : st.sched.count b ≤ 1 := by
      have := hcount b hbord
      simp only [Finset.not_mem_empty, if_neg] at this
      have hnn : st.sched = new := by simpa using hnew1
      rw [hnn]
      simpa using this
    have hbL1 : b ∉ L1 := by
      intro hbin
      have h1 : 1 ≤ L1.count b := List.count_pos_iff.2 hbin
      have h2 : 1 ≤ L2.count b := List.count_pos_iff.2 hbL2
      rw [heq] at hcnt
      simp only [List.count_append, List.count_cons] at hcnt
      omega
    refine ⟨writeSchedule (makeEdgeImpl g0 a b) st, ?_, L1, L2, ?_, hnaL1,
      hbL2, hbL1⟩
    · rw [ensureSchedule_of_empty _ order fuel (makeEdge_sched g0 a b), hems,
        hsort]
    · rw [writeSchedule_sched]
      exact heq

/-- Witness for C1 on the concrete graph with two independent nodes,
adding the edge `0 -> 1` (rank function: the identity). -/
theorem make_edge_roots_links_and_schedule_order_witness :
    (0 < (addMany freshGraph 2).nodes.length) ∧
    (1 < (addMany freshGraph 2).nodes.length) ∧
    (∀ v, v < (addMany freshGraph 2).nodes.length →
      ∀ u ∈ succOf (makeEdgeImpl (addMany freshGraph 2) 0 1) v, v < u) ∧
    (1 ∉ (makeEdgeImpl (addMany freshGraph 2) 0 1).roots ∧
     1 ∈ succOf (makeEdgeImpl (addMany freshGraph 2) 0 1) 0 ∧
     0 ∈ predsOf (makeEdgeImpl (addMany freshGraph 2) 0 1) 1 ∧
     ∃ g2, ensureSchedule (makeEdgeImpl (addMany freshGraph 2) 0 1) [0] 3 =
         some g2 ∧
       ∃ L1 L2, g2.sched = L1 ++ 0 :: L2 ∧ 0 ∉ L1 ∧ 1 ∈ L2 ∧ 1 ∉ L1) :=
  ⟨by decide, by decide, by decide,
   make_edge_roots_links_and_schedule_order (addMany freshGraph 2) 0 1
     (fun x => x) [0] 3 (by decide) (by decide) (by decide) (by decide)
     (by decide) (by decide) (by decide) (by decide)
     ⟨0, by decide, Relation.ReflTransGen.refl⟩ (by decide)⟩

/-- C10 amended: on every finite node graph — cyclic ones included —
a single `topology_sort` invocation terminates once the fuel (call
depth) exceeds the node count, because each node raises `is_scheduled`
before recursing and marked successors are skipped; and the nodes
pushed by that one invocation are pairwise distinct.  (Across a whole
multi-root computation a root already marked by an earlier root's
traversal is pushed again; see the counterexample.) -/
theorem topology_sort_terminates_and_pushes_once_per_invocation
    (g : GraphState) (fuel v : Nat) (s : SortSt)
    (hcl : ∀ x, x < g.nodes.length →
      ∀ u ∈ succOf g x, u < g.nodes.length)
    (hfuel : fuel ≥ g.nodes.length + 1) :
    ∃ s' new, sortNode (succOf g) fuel v s = some s' ∧
      s'.sched = new ++ s.sched ∧ new.Nodup := by
  have hcl' : ∀ x u, u ∈ succOf g x → u < g.nodes.length := by
    intro x u hu
    by_cases hx : x < g.nodes.length
    · exact hcl x hx u hu
    · rw [succOf_out_of_range _ x (by omega)] at hu
      cases hu
  have hcard : (Finset.range g.nodes.length \ s.marked).card ≤
      g.nodes.length := by
    have h2 : Finset.range g.nodes.length \ s.marked ⊆
        Finset.range g.nodes.length := Finset.sdiff_subset
    have h1 := Finset.card_le_card h2
    simpa [Finset.card_range] using h1
  have hadq := sortNode_adq_any (succOf g) g.nodes.length hcl' fuel v s
    (by omega)
  cases hres : sortNode (succOf g) fuel v s with
  | none => rw [hres] at hadq; cases hadq
  | some s' =>
    obtain ⟨new, e1, -, -, n1, -⟩ := sortNode_basic (succOf g) fuel v s s' hres
    exact ⟨s', new, rfl, e1, n1⟩

/-- Witness for C10 on the cyclic graph `A -> B -> A`: the sort
terminates and pushes each node once within the invocation. -/
theorem topology_sort_terminates_witness :
    (∀ x, x < cycAB.nodes.length →
      ∀ u ∈ succOf cycAB x, u < cycAB.nodes.length) ∧
    (3 ≥ cycAB.nodes.length + 1) ∧
    ∃ s' new, sortNode (succOf cycAB) 3 0 ⟨∅, []⟩ = some s' ∧
      s'.sched = new ++ ([] : List Nat) ∧ new.Nodup :=
  ⟨by decide, by decide,
   topology_sort_terminates_and_pushes_once_per_invocation cycAB 3 0 ⟨∅, []⟩
     (by decide) (by decide)⟩

theorem getD_replicate {α : Type} {a d : α} (N i : Nat) (hi : i < N) :
    (List.replicate N a).getD i d = a := by
  induction N generalizing i with
  | zero => omega
  | succ n ih =>
    cases i with
    | zero => rfl
    | succ m => simpa [List.replicate_succ] using ih m (by omega)

theorem addMany_spec (N : Nat) :
    addMany freshGraph N =
      { nodes := List.replicate N newBodyNode, roots := Finset.range N,
        sched := [], prevNode := none } := by
  induction N with
  | zero => rfl
  | succ n ih =>
    simp only [addMany, ih, addNodeCgf, pushNode, applyDeps, addRootImpl,
      clearSchedMarks]
    simp [List.replicate_succ', Finset.range_succ, List.length_replicate]

theorem sortRoots_trivial {succ : Nat → List Nat} {fuel : Nat}
    (hfuel : 1 ≤ fuel) :
    ∀ (order : List Nat) (s : SortSt), (∀ r ∈ order, succ r = []) →
      ∃ s', sortRoots succ fuel order s = some s' ∧
        s'.sched = order.reverse ++ s.sched := by
  intro order
  induction order with
  | nil => intro s _; exact ⟨s, rfl, by simp⟩
  | cons r rest ih =>
    intro s hemp
    obtain ⟨f, rfl⟩ : ∃ f, fuel = f + 1 := ⟨fuel - 1, by omega⟩
    have hstep : sortNode succ (f + 1) r s =
        some ⟨insert r s.marked, r :: s.sched⟩ := by
      simp [sortNode, sortStep, goSuccs, hemp r (List.mem_cons_self r rest)]
    simp only [sortRoots, hstep]
    obtain ⟨s', h1, h2⟩ := ih ⟨insert r s.marked, r :: s.sched⟩
      (fun x hx => hemp x (List.mem_cons_of_mem _ hx))
    refine ⟨s', h1, ?_⟩
    rw [h2]
    simp

/-- C6 amended: after adding `N` independent nodes to a fresh graph,
every one of them is a root; `num_nodes()` only reports `N` once a
schedule has been computed (it reads `my_schedule.size()` without
forcing a computation — see the counterexample for the pre-schedule
value 0). -/
theorem num_nodes_after_schedule_counts_roots (N : Nat) (order : List Nat)
    (fuel : Nat) (hnd : order.Nodup) (hset : order.toFinset = Finset.range N)
    (hfuel : 1 ≤ fuel) :
    (∀ i, i < N → i ∈ (addMany freshGraph N).roots) ∧
    ∃ g2, ensureSchedule (addMany freshGraph N) order fuel = some g2 ∧
      numNodes g2 = N := by
  have hspec := addMany_spec N
  constructor
  · intro i hi
    rw [hspec]
    exact Finset.mem_range.2 hi
  · have hsched : (addMany freshGraph N).sched = [] := by rw [hspec]
    have hsuccs : ∀ r ∈ order, succOf (addMany freshGraph N) r = [] := by
      intro r hr
      rw [hspec]
      simp only [succOf, nodeAt]
      by_cases hrN : r < N
      · rw [getD_replicate N r hrN]
        rfl
      · rw [List.getD_eq_default _ _ (by simp; omega)]
        rfl
    obtain ⟨s', h1, h2⟩ := sortRoots_trivial hfuel order
      ⟨markedSet (addMany freshGraph N), []⟩ hsuccs
    refine ⟨writeSchedule (addMany freshGraph N) s', ?_, ?_⟩
    · rw [ensureSchedule_of_empty _ order fuel hsched, h1]
    · rw [numNodes, writeSchedule_sched, h2]
      simp only [List.append_nil, List.length_reverse]
      rw [← List.toFinset_card_of_nodup hnd, hset, Finset.card_range]

/-- Witness for C6 with two nodes and root iteration order `[0, 1]`. -/
theorem num_nodes_after_schedule_counts_roots_witness :
    ([0, 1] : List Nat).Nodup ∧ ([0, 1] : List Nat).toFinset = Finset.range 2 ∧
    (∀ i, i < 2 → i ∈ (addMany freshGraph 2).roots) ∧
    ∃ g2, ensureSchedule (addMany freshGraph 2) [0, 1] 1 = some g2 ∧
      numNodes g2 = 2 :=
  ⟨by decide, by decide,
   num_nodes_after_schedule_counts_roots 2 [0, 1] 1 (by decide) (by decide)
     (by decide)⟩

theorem resolveLoop_mem (g : GraphState) :
    ∀ (fuel : Nat) (work deps out : List Nat),
      resolveLoop g fuel work deps = some out →
      (∀ x ∈ out, x ∈ deps ∨ isEmptyOf g x = false) ∧
      ∀ a, (a ∈ deps ∨ ∃ w ∈ work, Resolves g w a) → a ∈ out := by
  intro fuel
  induction fuel with
  | zero =>
    intro work deps out h
    cases work with
    | nil =>
      simp only [resolveLoop] at h
      cases h
      refine ⟨fun x hx => Or.inl hx, ?_⟩
      intro a ha
      rcases ha with ha | ⟨w, hw, -⟩
      · exact ha
      · cases hw
    | cons c rest => cases h
  | succ f ih =>
    intro work deps out h
    cases work with
    | nil =>
      simp only [resolveLoop] at h
      cases h
      refine ⟨fun x hx => Or.inl hx, ?_⟩
      intro a ha
      rcases ha with ha | ⟨w, hw, -⟩
      · exact ha
      · cases hw
    | cons c rest =>
      simp only [resolveLoop] at h
      by_cases hce : isEmptyOf g c = true
      · rw [if_pos hce] at h
        obtain ⟨h1, h2⟩ := ih _ _ _ h
        refine ⟨h1, ?_⟩
        intro a ha
        apply h2
        rcases ha with ha | ⟨w, hw, hres⟩
        · exact Or.inl ha
        · rcases List.mem_cons.1 hw with rfl | hw2
          · cases hres with
            | self hne => rw [hce] at hne; cases hne
            | step _ hp hres2 =>
              exact Or.inr ⟨_, List.mem_append.2
                (Or.inl (List.mem_reverse.2 hp)), hres2⟩
          · exact Or.inr ⟨w, List.mem_append.2 (Or.inr hw2), hres⟩
      · rw [if_neg hce] at h
        obtain ⟨h1, h2⟩ := ih _ _ _ h
        constructor
        · intro x hx
          rcases h1 x hx with hx2 | hx2
          · rcases List.mem_append.1 hx2 with hx3 | hx3
            · exact Or.inl hx3
            · rcases List.mem_singleton.1 hx3 with rfl
              exact Or.inr (by simpa using hce)
          · exact Or.inr hx2
        · intro a ha
          apply h2
          rcases ha with ha | ⟨w, hw, hres⟩
          · exact Or.inl (List.mem_append.2 (Or.inl ha))
          · rcases List.mem_cons.1 hw with rfl | hw2
            · cases hres with
              | self _ =>
                exact Or.inl (List.mem_append.2
                  (Or.inr (List.mem_singleton.2 rfl)))
              | step he _ _ => rw [he] at hce; exact absurd rfl hce
            · exact Or.inr ⟨w, hw2, hres⟩

theorem foldr_max_preds (l : List NodeR) (i : Nat) (hi : i < l.length) :
    (l.getD i default).preds.length ≤
      l.foldr (fun nd m => max nd.preds.length m) 0 := by
  induction l generalizing i with
  | nil => simp at hi
  | cons x xs ih =>
    cases i with
    | zero => exact le_max_left _ _
    | succ m =>
      have h1 := ih m (by simpa using hi)
      simp only [List.getD_cons_succ, List.foldr_cons]
      exact le_trans h1 (le_max_right _ _)

theorem predsLen_le_maxPredLen (g : GraphState) (i : Nat)
    (hi : i < g.nodes.length) : (predsOf g i).length ≤ maxPredLen g :=
  foldr_max_preds g.nodes i hi

theorem resolveLoop_adq (g : GraphState) (rk : Nat → Nat)
    (hcl : ∀ i, i < g.nodes.length → ∀ p ∈ predsOf g i, p < g.nodes.length)
    (hrk : ∀ i, i < g.nodes.length → ∀ p ∈ predsOf g i, rk p < rk i) :
    ∀ (fuel : Nat) (work deps : List Nat),
      (∀ w ∈ work, w < g.nodes.length) →
      fuel ≥ 1 + (work.map (fun x => (maxPredLen g + 1) ^ rk x)).sum →
      (resolveLoop g fuel work deps).isSome = true := by
  intro fuel
  induction fuel with
  | zero =>
    intro work deps hw hf
    cases work with
    | nil => simp [resolveLoop]
    | cons c rest =>
      exfalso
      have h1 : 0 < (maxPredLen g + 1) ^ rk c :=
        pow_pos (Nat.succ_pos _) _
      simp only [List.map_cons, List.sum_cons] at hf
      omega
  | succ f ih =>
    intro work deps hw hf
    cases work with
    | nil => simp [resolveLoop]
    | cons c rest =>
      have hc : c < g.nodes.length := hw c (List.mem_cons_self c rest)
      simp only [resolveLoop]
      simp only [List.map_cons, List.sum_cons] at hf
      by_cases hce : isEmptyOf g c = true
      · rw [if_pos hce]
        apply ih
        · intro w hwm
          rcases List.mem_append.1 hwm with hwm2 | hwm2
          · exact hcl c hc w (List.mem_reverse.1 hwm2)
          · exact hw w (List.mem_cons_of_mem _ hwm2)
        · have hbound : ((predsOf g c).map
              (fun x => (maxPredLen g + 1) ^ rk x)).sum + 1 ≤
              (maxPredLen g + 1) ^ rk c := by
            rcases hcase : predsOf g c with _ | ⟨p, ps⟩
            · simp only [List.map_nil, List.sum_nil]
              exact pow_pos (Nat.succ_pos _) _
            · have hrkc : 1 ≤ rk c := by
                have := hrk c hc p (by rw [hcase]; exact List.mem_cons_self p ps)
                omega
              have helem : ∀ x ∈ (predsOf g c).map
                  (fun x => (maxPredLen g + 1) ^ rk x),
                  x ≤ (maxPredLen g + 1) ^ (rk c - 1) := by
                intro x hx
                obtain ⟨p2, hp2, rfl⟩ := List.mem_map.1 hx
                have h2 := hrk c hc p2 hp2
                exact Nat.pow_le_pow_right (Nat.succ_le_succ (Nat.zero_le _))
                  (by omega)
              have hsum := List.sum_le_card_nsmul _ _ helem
              simp only [smul_eq_mul] at hsum
              have hlen : ((predsOf g c).map
                  (fun x => (maxPredLen g + 1) ^ rk x)).length ≤
                  maxPredLen g := by
                rw [List.length_map]
                exact predsLen_le_maxPredLen g c hc
              have hs2 : ((predsOf g c).map
                  (fun x => (maxPredLen g + 1) ^ rk x)).sum ≤
                  maxPredLen g * (maxPredLen g + 1) ^ (rk c - 1) :=
                le_trans hsum (Nat.mul_le_mul_right _ hlen)
              have hX : 1 ≤ (maxPredLen g + 1) ^ (rk c - 1) :=
                pow_pos (Nat.succ_pos _) _
              have hpow : (maxPredLen g + 1) ^ rk c =
                  (maxPredLen g + 1) ^ (rk c - 1) * maxPredLen g +
                  (maxPredLen g + 1) ^ (rk c - 1) := by
                have h3 : (maxPredLen g + 1) ^ rk c =
                    (maxPredLen g + 1) ^ (rk c - 1) * (maxPredLen g + 1) := by
                  rw [← pow_succ]
                  congr 1
                  omega
                rw [h3]
                ring
              rw [← hcase, hpow]
              have h4 : maxPredLen g * (maxPredLen g + 1) ^ (rk c - 1) =
                  (maxPredLen g + 1) ^ (rk c - 1) * maxPredLen g := by ring
              omega
          have hrevsum : ((predsOf g c).reverse.map
              (fun x => (maxPredLen g + 1) ^ rk x)).sum =
              ((predsOf g c).map (fun x => (maxPredLen g + 1) ^ rk x)).sum := by
            rw [List.map_reverse, List.sum_reverse]
          simp only [List.map_append, List.sum_append, hrevsum]
          omega
      · rw [if_neg hce]
        apply ih
        · exact fun w hwm => hw w (List.mem_cons_of_mem _ hwm)
        · have h1 : 0 < (maxPredLen g + 1) ^ rk c :=
            pow_pos (Nat.succ_pos _) _
          omega

theorem emptyAnc_resolves (g : GraphState) {b a : Nat}
    (h : EmptyAnc g b a) :
    isEmptyOf g a = false → ∃ w ∈ predsOf g b, Resolves g w a := by
  induction h with
  | direct hp => intro hne; exact ⟨_, hp, Resolves.self hne⟩
  | through hp he _ ih =>
    intro hne
    obtain ⟨w, hw, hres⟩ := ih hne
    exact ⟨_, hp, Resolves.step he hw hres⟩

/-- C4: on a graph whose predecessor relation is acyclic (witnessed by
a rank function decreasing along predecessor edges), the worklist of
`node_impl::exec` that builds node `b`'s wait set terminates, and any
wait set it produces consists only of completion handles of non-empty
nodes and contains the handle of every non-empty ancestor reachable
from `b` along chains of empty predecessors. -/
theorem exec_wait_set_flattens_empty_chains
    (g : GraphState) (b : Nat) (rk : Nat → Nat)
    (hb : b < g.nodes.length)
    (hcl : ∀ i, i < g.nodes.length → ∀ p ∈ predsOf g i, p < g.nodes.length)
    (hrk : ∀ i, i < g.nodes.length → ∀ p ∈ predsOf g i, rk p < rk i) :
    (∃ fuel deps, resolveWaitSet g fuel b = some deps) ∧
    ∀ fuel deps, resolveWaitSet g fuel b = some deps →
      (∀ x ∈ deps, isEmptyOf g x = false) ∧
      ∀ a, EmptyAnc g b a → isEmptyOf g a = false → a ∈ deps := by
  constructor
  · have hadq := resolveLoop_adq g rk hcl hrk
      (1 + ((predsOf g b).reverse.map
        (fun x => (maxPredLen g + 1) ^ rk x)).sum)
      (predsOf g b).reverse []
      (fun w hw => hcl b hb w (List.mem_reverse.1 hw)) (le_refl _)
    cases hres : resolveLoop g
        (1 + ((predsOf g b).reverse.map
          (fun x => (maxPredLen g + 1) ^ rk x)).sum)
        (predsOf g b).reverse [] with
    | none => rw [hres] at hadq; cases hadq
    | some deps =>
      exact ⟨_, deps, hres⟩
  · intro fuel deps h
    obtain ⟨h1, h2⟩ := resolveLoop_mem g fuel (predsOf g b).reverse [] deps h
    constructor
    · intro x hx
      rcases h1 x hx with hx2 | hx2
      · cases hx2
      · exact hx2
    · intro a hanc hane
      obtain ⟨w, hw, hres⟩ := emptyAnc_resolves g hanc hane
      exact h2 a (Or.inr ⟨w, List.mem_reverse.2 hw, hres⟩)

/-- Witness for C4 on the public-operation graph `A -> E(empty) -> B`
(indices 0, 1, 2; rank function: the identity): the computed wait set
for `B` is `[A]` — it contains `A`'s completion handle and no handle
for the empty node `E`. -/
theorem exec_wait_set_flattens_empty_chains_witness :
    (2 < flattenAEB.nodes.length) ∧
    (∀ i, i < flattenAEB.nodes.length →
      ∀ p ∈ predsOf flattenAEB i, p < flattenAEB.nodes.length) ∧
    (∀ i, i < flattenAEB.nodes.length →
      ∀ p ∈ predsOf flattenAEB i, p < i) ∧
    isEmptyOf flattenAEB 1 = true ∧
    resolveWaitSet flattenAEB 5 2 = some [0] ∧
    ((∃ fuel deps, resolveWaitSet flattenAEB fuel 2 = some deps) ∧
     ∀ fuel deps, resolveWaitSet flattenAEB fuel 2 = some deps →
       (∀ x ∈ deps, isEmptyOf flattenAEB x = false) ∧
       ∀ a, EmptyAnc flattenAEB 2 a → isEmptyOf flattenAEB a = false →
         a ∈ deps) :=
  ⟨by decide, by decide, by decide, by decide, by decide,
   exec_wait_set_flattens_empty_chains flattenAEB 2 (fun x => x)
     (by decide) (by decide) (by decide)⟩

theorem clearSchedMarks_isEmptyOf (g : GraphState) (k : Nat) :
    isEmptyOf (clearSchedMarks g) k = isEmptyOf g k := by
  simp only [isEmptyOf]
  rw [clearSchedMarks_nodeAt]
  split <;> rfl

theorem clearSchedMarks_hasBodyOf (g : GraphState) (k : Nat) :
    hasBodyOf (clearSchedMarks g) k = hasBodyOf g k := by
  simp only [hasBodyOf]
  rw [clearSchedMarks_nodeAt]
  split <;> rfl

theorem registerSuccessor_isEmptyOf (g : GraphState) (i j k : Nat) :
    isEmptyOf (registerSuccessor g i j) k = isEmptyOf g k := by
  simp only [isEmptyOf, nodeAt, registerSuccessor, modIdx_getD, modIdx_length]
  split <;> split <;> rfl

theorem registerSuccessor_hasBodyOf (g : GraphState) (i j k : Nat) :
    hasBodyOf (registerSuccessor g i j) k = hasBodyOf g k := by
  simp only [hasBodyOf, nodeAt, registerSuccessor, modIdx_getD, modIdx_length]
  split <;> split <;> rfl

theorem registerSuccessor_predsOf_other (g : GraphState) (i j k : Nat)
    (hk : k ≠ j) :
    predsOf (registerSuccessor g i j) k = predsOf g k := by
  simp only [predsOf, nodeAt, registerSuccessor, modIdx_getD, modIdx_length]
  split
  · rename_i h1
    exact absurd h1.1 hk
  · split <;> rfl

theorem makeEdge_isEmptyOf (g : GraphState) (a b k : Nat) :
    isEmptyOf (makeEdgeImpl g a b) k = isEmptyOf g k := by
  simp only [makeEdgeImpl, removeRootImpl]
  rw [clearSchedMarks_isEmptyOf]
  exact registerSuccessor_isEmptyOf g a b k

theorem makeEdge_hasBodyOf (g : GraphState) (a b k : Nat) :
    hasBodyOf (makeEdgeImpl g a b) k = hasBodyOf g k := by
  simp only [makeEdgeImpl, removeRootImpl]
  rw [clearSchedMarks_hasBodyOf]
  exact registerSuccessor_hasBodyOf g a b k

theorem makeEdge_predsOf_other (g : GraphState) (a b k : Nat) (hk : k ≠ b) :
    predsOf (makeEdgeImpl g a b) k = predsOf g k := by
  simp only [makeEdgeImpl]
  rw [removeRoot_predsOf]
  exact registerSuccessor_predsOf_other g a b k hk

theorem addRoot_roots (g : GraphState) (i : Nat) :
    (addRootImpl g i).roots = insert i g.roots := rfl

theorem addRoot_len (g : GraphState) (i : Nat) :
    (addRootImpl g i).nodes.length = g.nodes.length :=
  clearSchedMarks_len { g with roots := insert i g.roots }

theorem addRoot_predsOf (g : GraphState) (i k : Nat) :
    predsOf (addRootImpl g i) k = predsOf g k :=
  clearSchedMarks_predsOf { g with roots := insert i g.roots } k

theorem addRoot_isEmptyOf (g : GraphState) (i k : Nat) :
    isEmptyOf (addRootImpl g i) k = isEmptyOf g k :=
  clearSchedMarks_isEmptyOf { g with roots := insert i g.roots } k

theorem addRoot_hasBodyOf (g : GraphState) (i k : Nat) :
    hasBodyOf (addRootImpl g i) k = hasBodyOf g k :=
  clearSchedMarks_hasBodyOf { g with roots := insert i g.roots } k

theorem removeRoot_roots (g : GraphState) (i : Nat) :
    (removeRootImpl g i).roots = g.roots.erase i := rfl

theorem removeRoot_isEmptyOf (g : GraphState) (i k : Nat) :
    isEmptyOf (removeRootImpl g i) k = isEmptyOf g k :=
  clearSchedMarks_isEmptyOf { g with roots := g.roots.erase i } k

theorem removeRoot_hasBodyOf (g : GraphState) (i k : Nat) :
    hasBodyOf (removeRootImpl g i) k = hasBodyOf g k :=
  clearSchedMarks_hasBodyOf { g with roots := g.roots.erase i } k

theorem getD_append_lt (l : List α) (x d : α) (k : Nat) (hk : k < l.length) :
    (l ++ [x]).getD k d = l.getD k d := by
  induction l generalizing k with
  | nil => simp at hk
  | cons y ys ih =>
    cases k with
    | zero => rfl
    | succ m =>
      exact ih m (by simp only [List.length_cons] at hk; omega)

theorem getD_append_self (l : List α) (x d : α) :
    (l ++ [x]).getD l.length d = x := by
  induction l with
  | nil => rfl
  | cons y ys ih => exact ih

theorem fold_makeEdge_props (k : Nat) :
    ∀ (deps : List Nat) (g : GraphState),
      (deps.foldl (fun h d => makeEdgeImpl h d k) g).nodes.length =
        g.nodes.length ∧
      (deps.foldl (fun h d => makeEdgeImpl h d k) g).roots =
        (if deps = [] then g.roots else g.roots.erase k) ∧
      (∀ m, m ≠ k →
        predsOf (deps.foldl (fun h d => makeEdgeImpl h d k) g) m =
          predsOf g m) ∧
      (k < g.nodes.length →
        predsOf (deps.foldl (fun h d => makeEdgeImpl h d k) g) k =
          predsOf g k ++ deps) ∧
      (∀ m, isEmptyOf (deps.foldl (fun h d => makeEdgeImpl h d k) g) m =
        isEmptyOf g m) ∧
      (∀ m, hasBodyOf (deps.foldl (fun h d => makeEdgeImpl h d k) g) m =
        hasBodyOf g m) := by
  intro deps
  induction deps with
  | nil =>
    intro g
    exact ⟨rfl, by simp, fun m _ => rfl, fun _ => by simp, fun m => rfl,
      fun m => rfl⟩
  | cons d ds ih =>
    intro g
    simp only [List.foldl_cons]
    obtain ⟨l1, r1, p1, pk1, e1, b1⟩ := ih (makeEdgeImpl g d k)
    refine ⟨?_, ?_, ?_, ?_, ?_, ?_⟩
    · rw [l1, makeEdge_len]
    · rw [r1, makeEdge_roots]
      by_cases hds : ds = [] <;> simp [hds, Finset.erase_idem]
    · intro m hm
      rw [p1 m hm, makeEdge_predsOf_other g d k m hm]
    · intro hk
      rw [pk1 (by rw [makeEdge_len]; exact hk),
        makeEdge_preds_receiver g d k hk]
      simp
    · intro m
      rw [e1 m, makeEdge_isEmptyOf]
    · intro m
      rw [b1 m, makeEdge_hasBodyOf]

theorem rootInv_makeEdge (g : GraphState) (a b : Nat) (h : RootInv g) :
    RootInv (makeEdgeImpl g a b) := by
  obtain ⟨hrange, hiff⟩ := h
  constructor
  · intro i hi
    rw [makeEdge_roots] at hi
    rw [makeEdge_len]
    exact hrange i (Finset.mem_of_mem_erase hi)
  · intro i hilen
    rw [makeEdge_len] at hilen
    by_cases hib : i = b
    · subst hib
      rw [makeEdge_roots, makeEdge_preds_receiver g a i hilen]
      simp
    · rw [makeEdge_roots, makeEdge_predsOf_other g a b i hib,
        Finset.mem_erase]
      rw [← hiff i hilen]
      simp [hib]

theorem rootInv_applyDeps_push (g : GraphState) (nd : NodeR)
    (hnd : nd.preds = []) (deps : List Nat) (h : RootInv g) :
    RootInv (applyDeps { g with nodes := g.nodes ++ [nd] }
      g.nodes.length deps) := by
  obtain ⟨hrange, hiff⟩ := h
  have hpredsAt : ∀ m, m < g.nodes.length →
      predsOf { g with nodes := g.nodes ++ [nd] } m = predsOf g m := by
    intro m hm
    simp only [predsOf, nodeAt]
    rw [getD_append_lt _ _ _ _ hm]
  have hpredsNew : predsOf { g with nodes := g.nodes ++ [nd] }
      g.nodes.length = nd.preds := by
    simp only [predsOf, nodeAt]
    rw [getD_append_self]
  have hnotmem : g.nodes.length ∉ g.roots := by
    intro hmem
    exact absurd (hrange _ hmem) (lt_irrefl _)
  cases deps with
  | nil =>
    show RootInv (addRootImpl { g with nodes := g.nodes ++ [nd] }
      g.nodes.length)
    constructor
    · intro i hi
      rw [addRoot_roots] at hi
      rw [addRoot_len]
      simp only [List.length_append, List.length_singleton]
      rcases Finset.mem_insert.1 hi with rfl | hi2
      · omega
      · have := hrange i hi2
        omega
    · intro i hilen
      rw [addRoot_len] at hilen
      simp only [List.length_append, List.length_singleton] at hilen
      rw [addRoot_roots, addRoot_predsOf]
      by_cases hime : i = g.nodes.length
      · subst hime
        rw [hpredsNew, hnd]
        simp
      · have hlt : i < g.nodes.length := by omega
        rw [hpredsAt i hlt, Finset.mem_insert, ← hiff i hlt]
        simp [hime]
  | cons d ds =>
    show RootInv ((d :: ds).foldl
      (fun h2 d2 => makeEdgeImpl h2 d2 g.nodes.length)
      { g with nodes := g.nodes ++ [nd] })
    obtain ⟨l1, r1, p1, pk1, -, -⟩ :=
      fold_makeEdge_props g.nodes.length (d :: ds)
        { g with nodes := g.nodes ++ [nd] }
    have hlen1 : ({ g with nodes := g.nodes ++ [nd] } :
        GraphState).nodes.length = g.nodes.length + 1 := by
      simp
    constructor
    · intro i hi
      rw [r1] at hi
      simp only [if_neg (by simp : ¬(d :: ds = []))] at hi
      rw [l1, hlen1]
      have := hrange i (Finset.mem_of_mem_erase hi)
      omega
    · intro i hilen
      rw [l1, hlen1] at hilen
      rw [r1]
      simp only [if_neg (by simp : ¬(d :: ds = []))]
      by_cases hime : i = g.nodes.length
      · subst hime
        rw [pk1 (by rw [hlen1]; omega), hpredsNew, hnd]
        constructor
        · intro hin
          exact absurd (Finset.mem_of_mem_erase hin) hnotmem
        · intro heq
          simp at heq
      · have hlt : i < g.nodes.length := by omega
        rw [p1 i hime, hpredsAt i hlt, Finset.mem_erase, ← hiff i hlt]
        simp [hime]

theorem rootInv_register_push (g : GraphState) (nd : NodeR)
    (hnd : nd.preds = []) (q : Nat) (h : RootInv g) :
    RootInv (registerSuccessor { g with nodes := g.nodes ++ [nd] } q
      g.nodes.length) := by
  obtain ⟨hrange, hiff⟩ := h
  have hlen1 : ({ g with nodes := g.nodes ++ [nd] } :
      GraphState).nodes.length = g.nodes.length + 1 := by simp
  constructor
  · intro i hi
    rw [registerSuccessor_roots] at hi
    rw [registerSuccessor_len, hlen1]
    have := hrange i hi
    omega
  · intro i hilen
    rw [registerSuccessor_len, hlen1] at hilen
    rw [registerSuccessor_roots]
    by_cases hime : i = g.nodes.length
    · subst hime
      rw [registerSuccessor_preds_receiver _ q _ (by rw [hlen1]; omega)]
      have hpredsNew : predsOf { g with nodes := g.nodes ++ [nd] }
          g.nodes.length = nd.preds := by
        simp only [predsOf, nodeAt]
        rw [getD_append_self]
      rw [hpredsNew, hnd]
      constructor
      · intro hin
        exact absurd (hrange _ hin) (lt_irrefl _)
      · intro heq
        simp at heq
    · have hlt : i < g.nodes.length := by omega
      rw [registerSuccessor_predsOf_other _ q _ i hime]
      have hpredsAt : predsOf { g with nodes := g.nodes ++ [nd] } i =
          predsOf g i := by
        simp only [predsOf, nodeAt]
        rw [getD_append_lt _ _ _ _ hlt]
      rw [hpredsAt]
      exact hiff i hlt

/-- C2 amended: the root-iff-no-predecessors invariant is preserved by
`make_edge` and by every node-allocating `add_node` overload (with or
without capture mode); the overloads that rebind an existing node
(`update_node`, `add_node(node&, ...)`) break it by re-rooting a node
that already has predecessors — see the counterexample. -/
theorem root_invariant_preserved_by_safe_ops (g : GraphState)
    (op : RootSafeOp) (h : RootInv g) : RootInv (applyRootSafeOp op g) := by
  cases op with
  | addCgf deps capture =>
    cases capture with
    | false =>
      show RootInv (applyDeps { g with nodes := g.nodes ++ [newBodyNode] }
        g.nodes.length deps)
      exact rootInv_applyDeps_push g newBodyNode rfl deps h
    | true =>
      cases hpv : g.prevNode with
      | none =>
        have heq : applyRootSafeOp (.addCgf deps true) g =
            { addRootImpl { g with nodes := g.nodes ++ [newBodyNode] }
                g.nodes.length with prevNode := some g.nodes.length } := by
          simp only [applyRootSafeOp, addNodeCgf, pushNode, hpv]
          rfl
        rw [heq]
        exact rootInv_applyDeps_push g newBodyNode rfl [] h
      | some q =>
        have heq : applyRootSafeOp (.addCgf deps true) g =
            { registerSuccessor { g with nodes := g.nodes ++ [newBodyNode] }
                q g.nodes.length with prevNode := some g.nodes.length } := by
          simp only [applyRootSafeOp, addNodeCgf, pushNode, hpv]
          rfl
        rw [heq]
        exact rootInv_register_push g newBodyNode rfl q h
  | addEmpty deps =>
    show RootInv (applyDeps { g with nodes := g.nodes ++ [newEmptyNode] }
      g.nodes.length deps)
    exact rootInv_applyDeps_push g newEmptyNode rfl deps h
  | edge a b =>
    exact rootInv_makeEdge g a b h

/-- Witness for C2 on the concrete two-node graph with the safe
operation `make_edge(0, 1)`. -/
theorem root_invariant_preserved_by_safe_ops_witness :
    RootInv (addMany freshGraph 2) ∧
    RootInv (applyRootSafeOp (.edge 0 1) (addMany freshGraph 2)) :=
  ⟨by decide,
   root_invariant_preserved_by_safe_ops (addMany freshGraph 2) (.edge 0 1)
     (by decide)⟩

theorem bodyInv_applyDeps (g : GraphState) (i : Nat) (deps : List Nat)
    (h : BodyInv g) : BodyInv (applyDeps g i deps) := by
  cases deps with
  | nil =>
    show BodyInv (addRootImpl g i)
    intro m hm
    rw [addRoot_len] at hm
    rw [addRoot_isEmptyOf, addRoot_hasBodyOf]
    exact h m hm
  | cons d ds =>
    show BodyInv ((d :: ds).foldl (fun h2 d2 => makeEdgeImpl h2 d2 i) g)
    obtain ⟨l1, -, -, -, e1, b1⟩ := fold_makeEdge_props i (d :: ds) g
    intro m hm
    rw [l1] at hm
    rw [e1 m, b1 m]
    exact h m hm

theorem bodyInv_push (g : GraphState) (nd : NodeR)
    (hnd : nd.hasBody = true ↔ nd.isEmpty = false) (h : BodyInv g) :
    BodyInv { g with nodes := g.nodes ++ [nd] } := by
  intro m hm
  simp only [List.length_append, List.length_singleton] at hm
  by_cases hmm : m = g.nodes.length
  · subst hmm
    simp only [hasBodyOf, isEmptyOf, nodeAt]
    rw [getD_append_self]
    exact hnd
  · have hlt : m < g.nodes.length := by omega
    simp only [hasBodyOf, isEmptyOf, nodeAt]
    rw [getD_append_lt _ _ _ _ hlt]
    exact h m hlt

theorem bodyInv_setBody (g : GraphState) (i : Nat) (f : NodeR → NodeR)
    (hf : ∀ nd, (f nd).hasBody = true ∧ (f nd).isEmpty = false)
    (h : BodyInv g) :
    BodyInv { g with nodes := modIdx g.nodes i f } := by
  intro m hm
  simp only [hasBodyOf, isEmptyOf, nodeAt] at *
  rw [modIdx_length] at hm
  rw [modIdx_getD]
  by_cases hc : m = i ∧ m < g.nodes.length
  · rw [if_pos hc]
    rw [(hf _).1, (hf _).2]
    simp
  · rw [if_neg hc]
    exact h m hm

theorem bodyInv_register (g : GraphState) (i j : Nat) (h : BodyInv g) :
    BodyInv (registerSuccessor g i j) := by
  intro m hm
  rw [registerSuccessor_len] at hm
  rw [registerSuccessor_isEmptyOf, registerSuccessor_hasBodyOf]
  exact h m hm

/-- C9 amended: the body-present-iff-not-empty invariant is preserved
by node creation (all constructors), `make_edge`, `node::update`, and
every overload that installs a body while clearing `is_empty`
(`add_node(node&, cgf, dep)`, `update_node(node&, cgf, dep)`); the
body-less overloads `add_node(node&, dep)` (sets `is_empty = false`
with no body) and `update_node(node&, dep)` (sets `is_empty = true`
without clearing an existing body) break it — see the
counterexample. -/
theorem body_invariant_preserved_by_body_ops (g : GraphState)
    (op : BodySafeOp) (h : BodyInv g) : BodyInv (applyBodySafeOp op g) := by
  cases op with
  | addCgf deps capture =>
    cases capture with
    | false =>
      show BodyInv (applyDeps { g with nodes := g.nodes ++ [newBodyNode] }
        g.nodes.length deps)
      exact bodyInv_applyDeps _ _ deps (bodyInv_push g newBodyNode
        (by constructor <;> (intro; rfl)) h)
    | true =>
      cases hpv : g.prevNode with
      | none =>
        have heq : applyBodySafeOp (.addCgf deps true) g =
            { addRootImpl { g with nodes := g.nodes ++ [newBodyNode] }
                g.nodes.length with prevNode := some g.nodes.length } := by
          simp only [applyBodySafeOp, addNodeCgf, pushNode, hpv]
          rfl
        rw [heq]
        exact bodyInv_applyDeps _ _ [] (bodyInv_push g newBodyNode
          (by constructor <;> (intro; rfl)) h)
      | some q =>
        have heq : applyBodySafeOp (.addCgf deps true) g =
            { registerSuccessor { g with nodes := g.nodes ++ [newBodyNode] }
                q g.nodes.length with prevNode := some g.nodes.length } := by
          simp only [applyBodySafeOp, addNodeCgf, pushNode, hpv]
          rfl
        rw [heq]
        exact bodyInv_register _ q _ (bodyInv_push g newBodyNode
          (by constructor <;> (intro; rfl)) h)
  | addEmpty deps =>
    show BodyInv (applyDeps { g with nodes := g.nodes ++ [newEmptyNode] }
      g.nodes.length deps)
    refine bodyInv_applyDeps _ _ deps (bodyInv_push g newEmptyNode ?_ h)
    constructor <;> (intro hx; cases hx)
  | edge a b =>
    show BodyInv (makeEdgeImpl g a b)
    intro m hm
    rw [makeEdge_len] at hm
    rw [makeEdge_isEmptyOf, makeEdge_hasBodyOf]
    exact h m hm
  | updNode i =>
    exact bodyInv_setBody g i _ (fun nd => ⟨rfl, rfl⟩) h
  | addExistingCgf i deps =>
    exact bodyInv_applyDeps _ i deps
      (bodyInv_setBody g i _ (fun nd => ⟨rfl, rfl⟩) h)
  | updateCgf i deps =>
    exact bodyInv_applyDeps _ i deps
      (bodyInv_setBody g i _ (fun nd => ⟨rfl, rfl⟩) h)

/-- Witness for C9: `node::update` on a freshly added empty node
restores the invariant. -/
theorem body_invariant_preserved_by_body_ops_witness :
    BodyInv (addNodeEmpty freshGraph []).1 ∧
    BodyInv (applyBodySafeOp (.updNode 0) (addNodeEmpty freshGraph []).1) :=
  ⟨by decide,
   body_invariant_preserved_by_body_ops (addNodeEmpty freshGraph []).1
     (.updNode 0) (by decide)⟩

theorem addRoot_markOf (g : GraphState) (i k : Nat) :
    markOf (addRootImpl g i) k =
      if k ∈ g.sched ∧ k < g.nodes.length then false else markOf g k :=
  clearSchedMarks_markOf { g with roots := insert i g.roots } k

/-- C3 amended: the operations that touch the root set — `add_root`,
`remove_root`, and `make_edge` (which calls `remove_root`) — clear the
cached schedule and reset the `is_scheduled` flag of every node of the
old schedule; a capture-mode `add_node` after the first node runs
`register_successor` alone and clears nothing — see the
counterexample. -/
theorem root_and_edge_mutations_clear_schedule (g : GraphState)
    (i j : Nat) :
    (addRootImpl g i).sched = [] ∧
    (removeRootImpl g i).sched = [] ∧
    (makeEdgeImpl g i j).sched = [] ∧
    ∀ k, k ∈ g.sched → k < g.nodes.length →
      markOf (addRootImpl g i) k = false ∧
      markOf (removeRootImpl g i) k = false := by
  refine ⟨rfl, rfl, rfl, ?_⟩
  intro k hk1 hk2
  rw [addRoot_markOf, removeRoot_markOf]
  rw [if_pos ⟨hk1, hk2⟩]
  exact ⟨rfl, rfl⟩

/-- Witness for C3 on the one-captured-node state whose cached
schedule is `[0]`. -/
theorem root_and_edge_mutations_clear_schedule_witness :
    (addRootImpl captureOneScheduled 0).sched = [] ∧
    (removeRootImpl captureOneScheduled 0).sched = [] ∧
    (makeEdgeImpl captureOneScheduled 0 1).sched = [] ∧
    (0 ∈ captureOneScheduled.sched ∧ 0 < captureOneScheduled.nodes.length) ∧
    markOf (addRootImpl captureOneScheduled 0) 0 = false :=
  ⟨(root_and_edge_mutations_clear_schedule captureOneScheduled 0 1).1,
   (root_and_edge_mutations_clear_schedule captureOneScheduled 0 1).2.1,
   (root_and_edge_mutations_clear_schedule captureOneScheduled 0 1).2.2.1,
   ⟨by decide, by decide⟩,
   ((root_and_edge_mutations_clear_schedule captureOneScheduled 0 1).2.2.2
     0 (by decide) (by decide)).1⟩
